import Mathlib

/-!
# klm-point-search: kd-tree construction and bounded top-K range search

A shallow embedding of `point_tree.cpp` / `point_tree.h` and of the boundary
operations of `point_search.cpp` / `search_context.h`, and the properties of
the construction (`build_tree`, `insert_median`), of the bounded search
(`find_best_points`, `process_node`, `find_worst_rank`) and of `search`.

Modelling conventions.

* `index_t` is `intmax_t`; it is embedded as `Int` (ranges such as `[0, -1]` occur).
* `int32_t` values (`rank`, `max_count`, `total_inside`, `worst_rank`) are `Int`;
  the one arithmetic operation on them, `++total_found_inside`, is reduced
  modulo `2^32` into the signed range by `wrap32`.
* The coordinates are 32-bit floats in the source.  Only their order is ever
  inspected (`<`, `>`, `>=`, `<=`, `==`), so they are embedded as `Int`, a
  linear order; NaN coordinates are outside the embedding.
* A C array reached through a pointer, and a `std::vector<index_t>`, is a total
  map from position to value (`Int → _`); a write is `Function.update`.
* A null pointer to a node is `Node.null`; a null buffer pointer is `none`.
* `std::sort` is specified only by its postcondition, so `build_tree` takes the
  sorting routine as a `StdSort`: any function returning a sorted permutation.
* The recursion of `insert_median` is not structural; it is embedded with a
  recursion budget and returns `none` when the budget is exhausted.
-/

namespace PointTree

/-! ## Data model -/

/-- The `Point` value type: `id`, `rank` (lower is better) and the two coordinates. -/
structure Point where
  id : Int
  rank : Int
  x : Int
  y : Int
deriving DecidableEq, Repr

instance instInhabitedPoint : Inhabited Point := ⟨⟨0, 0, 0, 0⟩⟩

/-- The `Rect` value type, inclusive on all four bounds. -/
structure Rect where
  lx : Int
  ly : Int
  hx : Int
  hy : Int
deriving DecidableEq, Repr

/-- A `Node*`: the null pointer, or a node owning a point and two children. -/
inductive Node where
  | null : Node
  | mk (point : Point) (left right : Node) : Node
deriving DecidableEq, Repr

/-- The type `index_t` (`intmax_t`); the signatures below write `Int` for it. -/
abbrev index_t := Int

/-- The type `indices_t` (`std::vector<Int>`), as a map from position to entry. -/
abbrev indices_t := Int → Int

/-- The constant `INT32_MIN`. -/
def INT32_MIN : Int := -2147483648

/-- The constant `INT32_MAX`. -/
def INT32_MAX : Int := 2147483647

/-- Reduction of an integer into the range of `int32_t` (two's complement). -/
def wrap32 (v : Int) : Int := (v + 2147483648) % 4294967296 - 2147483648

/-- The class `KdTree`: its only field is the root pointer. -/
structure KdTree where
  root_ : Node
deriving DecidableEq, Repr

/-- The constructor `KdTree()`: the root is null. -/
def KdTree.new : KdTree := ⟨Node.null⟩

/-- `Node::is_leaf`. -/
def Node.is_leaf : Node → Bool
  | Node.null => false
  | Node.mk _ l r => decide (l = Node.null) && decide (r = Node.null)

/-! ## Comparisons -/

/-- `KdTree::is_greater`. -/
def is_greater (p1 p2 : Point) (compare_x : Bool) : Bool :=
  if compare_x then decide (p1.x > p2.x) else decide (p1.y > p2.y)

/-- `KdTree::is_same`. -/
def is_same (p1 p2 : Point) (compare_x : Bool) : Bool :=
  if compare_x then decide (p1.x = p2.x) else decide (p1.y = p2.y)

/-! ## Construction -/

/-- The `while (median_idx > start)` loop of `insert_median`; the first argument
bounds the number of iterations (the loop decrements `median_idx` down to `start`
at most).  Returns `(median_idx, median_point_idx)`; `median` is
`points[median_point_idx]`. -/
def shift_median (indices : indices_t) (points : Int → Point) (start : Int) (split_x : Bool) :
    Nat → Int → Int → Int × Int
  | 0, median_idx, median_point_idx => (median_idx, median_point_idx)
  | n + 1, median_idx, median_point_idx =>
    if median_idx > start then
      let before_median_point_idx := indices (median_idx - 1)
      if is_same (points median_point_idx) (points before_median_point_idx) split_x then
        shift_median indices points start split_x n (median_idx - 1) before_median_point_idx
      else (median_idx, median_point_idx)
    else (median_idx, median_point_idx)

/-- The first `for (i = start; i <= end; ++i)` loop of `insert_median`: one pass over
`other_indices` writing into `temp_indices`; the first argument is the number of
iterations left, `i` the loop variable.  Returns `(temp_indices, lower, upper)`. -/
def partition_loop (other_indices : indices_t) (points : Int → Point) (median : Point)
    (median_point_idx : Int) (split_x : Bool) :
    Nat → Int → indices_t → Int → Int → indices_t × Int × Int
  | 0, _, temp_indices, lower, upper => (temp_indices, lower, upper)
  | n + 1, i, temp_indices, lower, upper =>
    let compare_index := other_indices i
    if compare_index = median_point_idx then
      partition_loop other_indices points median median_point_idx split_x n (i + 1)
        temp_indices lower upper
    else if is_greater median (points compare_index) split_x then
      partition_loop other_indices points median median_point_idx split_x n (i + 1)
        (Function.update temp_indices lower (other_indices i)) (lower + 1) upper
    else
      partition_loop other_indices points median median_point_idx split_x n (i + 1)
        (Function.update temp_indices upper (other_indices i)) lower (upper + 1)

/-- The second `for (i = start; i <= end; ++i)` loop of `insert_median`:
`other_indices[i] = temp_indices[i]`. -/
def copy_loop (temp_indices : indices_t) : Nat → Int → indices_t → indices_t
  | 0, _, other_indices => other_indices
  | n + 1, i, other_indices =>
    copy_loop temp_indices n (i + 1) (Function.update other_indices i (temp_indices i))

/-- `KdTree::insert_median`.  The three vectors are passed by reference in the source;
here the call returns them next to the node, in the order
`(indices, other_indices, temp_indices)` of the call's own parameters.  The first
argument is the recursion budget; `none` means it was exhausted. -/
def insert_median : Nat → indices_t → indices_t → indices_t → (Int → Point) → Int →
    Int → Bool → Option (Node × indices_t × indices_t × indices_t)
  | 0, _, _, _, _, _, _, _ => none
  | fuel + 1, indices, other_indices, temp_indices, points, start, end_, split_x =>
    if end_ > start then
      let median_idx0 := start + (end_ - start) / 2
      let sm := shift_median indices points start split_x (median_idx0 - start).toNat
        median_idx0 (indices median_idx0)
      let median_idx := sm.1
      let median_point_idx := sm.2
      let median := points median_point_idx
      let pl := partition_loop other_indices points median median_point_idx split_x
        (end_ + 1 - start).toNat start temp_indices start (median_idx + 1)
      let temp_indices1 := pl.1
      let lower := pl.2.1
      let upper := pl.2.2
      let other_indices1 := copy_loop temp_indices1 (end_ + 1 - start).toNat start other_indices
      match insert_median fuel other_indices1 indices temp_indices1 points start (lower - 1)
          (!split_x) with
      | none => none
      | some (left, other_indices2, indices2, temp_indices2) =>
        match insert_median fuel other_indices2 indices2 temp_indices2 points (median_idx + 1)
            (upper - 1) (!split_x) with
        | none => none
        | some (right, other_indices3, indices3, temp_indices3) =>
          some (Node.mk median left right, indices3, other_indices3, temp_indices3)
    else if start = end_ then
      some (Node.mk (points (indices end_)) Node.null Node.null, indices, other_indices,
        temp_indices)
    else
      some (Node.null, indices, other_indices, temp_indices)

/-- The result of `std::iota(v.begin(), v.end(), 0)` on a vector of `n` entries. -/
def iota (n : Nat) : List Int := (List.range n).map Int.ofNat

/-- A vector holding the entries of a list (positions outside the list read as 0). -/
def vec (l : List Int) : indices_t := fun i => if i < 0 then 0 else l.getD i.toNat 0

/-- The array of points behind `const Point* points`. -/
def point_array (pts : List Point) : Int → Point :=
  fun i => if i < 0 then default else pts.getD i.toNat default

/-- A model of `std::sort` on a vector of indices compared by a key
(`points[i1].x < points[i2].x`): any routine that returns a permutation of its
input in which no later entry has a smaller key than an earlier one. -/
structure StdSort where
  sort : (Int → Int) → List Int → List Int
  perm : ∀ key l, (sort key l).Perm l
  sorted : ∀ key l, (sort key l).Pairwise (fun i j => key i ≤ key j)

/-- Insertion of an index into a list sorted by key, before the first entry with a
strictly larger key. -/
def insert_by_key (key : Int → Int) (a : Int) : List Int → List Int
  | [] => [a]
  | b :: l => if key a < key b then a :: b :: l else b :: insert_by_key key a l

/-- Insertion sort by key. -/
def sort_by_key (key : Int → Int) : List Int → List Int
  | [] => []
  | a :: l => insert_by_key key a (sort_by_key key l)

/-- `KdTree::build_tree`.  `begin_ok` and `end_ok` say that the pointers `begin` and `end`
are not null, `pts` is the sequence they delimit.  Returns the returned pointer and
the tree object after the call (`root_` is assigned only on the last line);
`none` only when the recursion budget of `insert_median` is exhausted. -/
def KdTree.build_tree (t : KdTree) (S : StdSort) (begin_ok end_ok : Bool) (pts : List Point) :
    Option (Node × KdTree) :=
  if !begin_ok || !end_ok then some (Node.null, t)
  else
    let num_points := pts.length
    if num_points ≤ 0 then some (Node.null, t)
    else
      let points := point_array pts
      let x_indices := S.sort (fun i => (points i).x) (iota num_points)
      let y_indices := S.sort (fun i => (points i).y) (iota num_points)
      match insert_median (num_points + 1) (vec x_indices) (vec y_indices) (fun _ => 0) points 0
          ((num_points : Int) - 1) true with
      | none => none
      | some (root, _) => some (root, ⟨root⟩)

/-- `KdTree::size(const Node*)`. -/
def size : Node → Nat
  | Node.null => 0
  | Node.mk _ l r => 1 + size l + size r

/-- `KdTree::size()`. -/
def KdTree.size (t : KdTree) : Nat := PointTree.size t.root_

/-! ## Search -/

/-- The four values threaded by reference through the search: the destination
buffer, `total_inside`, `worst_idx` and `worst_rank`. -/
structure SearchState where
  out_points : Int → Point
  total_inside : Int
  worst_idx : Int
  worst_rank : Int

/-- The loop of `find_worst_rank`; the first argument is the number of iterations
left, `i` the loop variable.  Returns `(current_worst_rank, current_worst_idx)`. -/
def find_worst_loop (points : Int → Point) : Nat → Int → Int → Int → Int × Int
  | 0, _, current_worst_rank, current_worst_idx => (current_worst_rank, current_worst_idx)
  | n + 1, i, current_worst_rank, current_worst_idx =>
    if (points i).rank > current_worst_rank then
      find_worst_loop points n (i + 1) (points i).rank i
    else
      find_worst_loop points n (i + 1) current_worst_rank current_worst_idx

/-- `KdTree::find_worst_rank`: returns `(worst_rank, worst_idx)`. -/
def find_worst_rank (points : Int → Point) (num_points : Int) : Int × Int :=
  find_worst_loop points num_points.toNat 0 INT32_MIN 0

/-- The test `inside_rect` of `process_node`. -/
def inside_rect (rect : Rect) (p : Point) : Bool :=
  decide (p.x ≥ rect.lx) && decide (p.x ≤ rect.hx) && decide (p.y ≥ rect.ly) &&
    decide (p.y ≤ rect.hy)

/-- `KdTree::process_node`, on the point of the node. -/
def process_node (p : Point) (rect : Rect) (max_count : Int) (st : SearchState) : SearchState :=
  if inside_rect rect p then
    let total_found_inside := wrap32 (st.total_inside + 1)
    if total_found_inside < max_count then
      { out_points := Function.update st.out_points st.worst_idx p
        total_inside := total_found_inside
        worst_idx := st.worst_idx + 1
        worst_rank := st.worst_rank }
    else if total_found_inside = max_count ∨ p.rank < st.worst_rank then
      let out_points := Function.update st.out_points st.worst_idx p
      let w := find_worst_rank out_points max_count
      { out_points := out_points
        total_inside := total_found_inside
        worst_idx := w.2
        worst_rank := w.1 }
    else { st with total_inside := total_found_inside }
  else st

/-- The recursive overload of `KdTree::find_best_points`. -/
def find_best_points_rec (rect : Rect) (max_count : Int) : Node → Bool → SearchState → SearchState
  | Node.null, _, st => st
  | Node.mk p l r, split_on_x, st =>
    let st1 := process_node p rect max_count st
    if split_on_x then
      let st2 := if rect.lx < p.x then find_best_points_rec rect max_count l (!split_on_x) st1
        else st1
      if rect.hx ≥ p.x then find_best_points_rec rect max_count r (!split_on_x) st2 else st2
    else
      let st2 := if rect.ly < p.y then find_best_points_rec rect max_count l (!split_on_x) st1
        else st1
      if rect.hy ≥ p.y then find_best_points_rec rect max_count r (!split_on_x) st2 else st2

/-- `KdTree::find_best_points`.  `out_points` is `none` for a null pointer.  Returns the
returned count and the destination buffer after the call. -/
def KdTree.find_best_points (t : KdTree) (rect : Rect) (max_count : Int)
    (out_points : Option (Int → Point)) : Int × Option (Int → Point) :=
  match out_points with
  | none => (-1, none)
  | some out =>
    let st := find_best_points_rec rect max_count t.root_ true
      { out_points := out, total_inside := 0, worst_idx := 0, worst_rank := 0 }
    (min st.total_inside max_count, some st.out_points)

/-- A concrete sorting routine, used to run `build_tree`: insertion sort by key. -/
def insertion_sort : StdSort where
  sort := sort_by_key
  perm := by
    intro key l
    induction l with
    | nil => exact List.Perm.refl _
    | cons a l ih =>
      have hins : ∀ m : List Int, (insert_by_key key a m).Perm (a :: m) := by
        intro m
        induction m with
        | nil => exact List.Perm.refl _
        | cons b m ihm =>
          unfold insert_by_key
          split
          · exact List.Perm.refl _
          · exact (List.Perm.cons b ihm).trans (List.Perm.swap a b m)
      exact (hins _).trans (List.Perm.cons a ih)
  sorted := by
    intro key l
    induction l with
    | nil => exact List.Pairwise.nil
    | cons a l ih =>
      have hmem : ∀ (m : List Int) (c : Int), c ∈ insert_by_key key a m → c = a ∨ c ∈ m := by
        intro m
        induction m with
        | nil => intro c hc; simpa [insert_by_key] using hc
        | cons b m ihm =>
          intro c hc
          unfold insert_by_key at hc
          split at hc
          · simpa using hc
          · rcases List.mem_cons.mp hc with h | h
            · exact Or.inr (h ▸ List.mem_cons_self _ _)
            · rcases ihm c h with h1 | h1
              · exact Or.inl h1
              · exact Or.inr (List.mem_cons_of_mem _ h1)
      have hins : ∀ m : List Int, m.Pairwise (fun i j => key i ≤ key j) →
          (insert_by_key key a m).Pairwise (fun i j => key i ≤ key j) := by
        intro m
        induction m with
        | nil => intro _; simp [insert_by_key]
        | cons b m ihm =>
          intro hm
          unfold insert_by_key
          have hb := List.pairwise_cons.mp hm
          split
          · rename_i hlt
            refine List.pairwise_cons.mpr ⟨?_, hm⟩
            intro c hc
            rcases List.mem_cons.mp hc with h | h
            · rw [h]; exact le_of_lt hlt
            · exact le_trans (le_of_lt hlt) (hb.1 c h)
          · rename_i hge
            refine List.pairwise_cons.mpr ⟨?_, ihm hb.2⟩
            intro c hc
            rcases hmem m c hc with h | h
            · rw [h]; exact not_lt.mp hge
            · exact hb.1 c h
      exact hins _ ih

/-! ## Vocabulary of the statements -/

/-- The coordinate of a point in the split dimension: `x` when `split_x`, else `y`. -/
def key (split_x : Bool) (p : Point) : Int := if split_x then p.x else p.y

/-- The entries `a[s], a[s+1], ..., a[s+n-1]` of an array. -/
def seg {α : Type} (a : Int → α) : Int → Nat → List α
  | _, 0 => []
  | s, n + 1 => a s :: seg a (s + 1) n

/-- The points of a tree in depth-first order: node, then left child, then right child. -/
def Node.points : Node → List Point
  | Node.null => []
  | Node.mk p l r => p :: (l.points ++ r.points)

/-- The kd split invariant for a subtree whose root splits on `x` when `split_x`, on `y`
otherwise: left subtree strictly smaller, right subtree greater or equal, at every node,
the dimension alternating from a node to its children. -/
def kd_inv : Bool → Node → Prop
  | _, Node.null => True
  | split_x, Node.mk p l r =>
    (∀ q ∈ l.points, key split_x q < key split_x p) ∧
    (∀ q ∈ r.points, key split_x p ≤ key split_x q) ∧
    kd_inv (!split_x) l ∧ kd_inv (!split_x) r

/-- The kd split invariant stated by depth: a node at depth `d` splits on `x` when `d` is
even and on `y` when `d` is odd. -/
def kd_invariant_at : Nat → Node → Prop
  | _, Node.null => True
  | d, Node.mk p l r =>
    (∀ q ∈ l.points, key (decide (d % 2 = 0)) q < key (decide (d % 2 = 0)) p) ∧
    (∀ q ∈ r.points, key (decide (d % 2 = 0)) p ≤ key (decide (d % 2 = 0)) q) ∧
    kd_invariant_at (d + 1) l ∧ kd_invariant_at (d + 1) r

/-- What a call of `insert_median` on the positions `start .. start+n-1` relies on: the
primary ordering is sorted by the split dimension, the other ordering by the other
dimension, and both hold the same point indices, each once. -/
structure RangeInv (points : Int → Point) (indices other_indices : indices_t) (start : Int)
    (n : Nat) (split_x : Bool) : Prop where
  sorted_ind : (seg indices start n).Pairwise
    (fun i j => key split_x (points i) ≤ key split_x (points j))
  sorted_oth : (seg other_indices start n).Pairwise
    (fun i j => key (!split_x) (points i) ≤ key (!split_x) (points j))
  perm : (seg indices start n).Perm (seg other_indices start n)
  nodup : (seg indices start n).Nodup

/-- The points of the nodes the pruned depth-first search visits, in the order it visits
them: the `process_node` calls that `find_best_points` makes. -/
def visited (rect : Rect) : Node → Bool → List Point
  | Node.null, _ => []
  | Node.mk p l r, split_on_x =>
    p :: ((if (if split_on_x then rect.lx < p.x else rect.ly < p.y)
            then visited rect l (!split_on_x) else []) ++
          (if (if split_on_x then rect.hx ≥ p.x else rect.hy ≥ p.y)
            then visited rect r (!split_on_x) else []))

/-- The effect of `process_node` on a sequence of points, one after the other. -/
def process_all (rect : Rect) (max_count : Int) (l : List Point) (st : SearchState) :
    SearchState :=
  l.foldl (fun st p => process_node p rect max_count st) st

/-- The points of a list that lie inside the rectangle, in the order of the list. -/
def matching (rect : Rect) (pts : List Point) : List Point := pts.filter (inside_rect rect)

/-- The state `find_best_points` starts the search from. -/
def initial_state (out : Int → Point) : SearchState :=
  { out_points := out, total_inside := 0, worst_idx := 0, worst_rank := 0 }

/-- The bookkeeping of the search after the matches `l` have been processed with capacity
`k`: the counter; while the buffer is not full, the next free slot and the buffer so far;
once `k ≥ 1` matches have been seen (their ranks being `int32_t` values), the first `k`
entries are `k` of the matches, every other match ranks no better than any of them, and
`worst_idx`, `worst_rank` locate the highest rank in the buffer, at its lowest position. -/
structure SearchInv (k : Int) (l : List Point) (st : SearchState) : Prop where
  total : st.total_inside = l.length
  filling : (l.length : Int) < k → st.worst_idx = l.length
  prefix_eq : (l.length : Int) ≤ k → seg st.out_points 0 l.length = l
  top : 1 ≤ k → k ≤ l.length → (∀ q ∈ l, INT32_MIN ≤ q.rank) →
    (∃ rest, l.Perm (seg st.out_points 0 k.toNat ++ rest) ∧
      ∀ p ∈ rest, ∀ q ∈ seg st.out_points 0 k.toNat, q.rank ≤ p.rank) ∧
    0 ≤ st.worst_idx ∧ st.worst_idx < k ∧
    (st.out_points st.worst_idx).rank = st.worst_rank ∧
    (∀ j, 0 ≤ j → j < k → (st.out_points j).rank ≤ st.worst_rank) ∧
    (∀ j, 0 ≤ j → j < st.worst_idx → (st.out_points j).rank < st.worst_rank)

/-- The struct `SearchContext`: it owns one `KdTree`. -/
structure SearchContext where
  points : KdTree

/-- The constructor `SearchContext(begin, end)`: `points.build_tree(begin, end)` on the fresh
tree member; `none` only when the recursion budget of `insert_median` is exhausted. -/
def SearchContext.new (S : StdSort) (begin_ok end_ok : Bool) (pts : List Point) :
    Option SearchContext :=
  match KdTree.new.build_tree S begin_ok end_ok pts with
  | none => none
  | some (_, t) => some ⟨t⟩

/-- `SearchContext::copy_best_points`. -/
def SearchContext.copy_best_points (sc : SearchContext) (rect : Rect) (max_count : Int)
    (out_points : Option (Int → Point)) : Int × Option (Int → Point) :=
  sc.points.find_best_points rect max_count out_points

/-- The function `create`: the returned pointer is `some none` when it is null; the outer
`none` only when the recursion budget of `insert_median` is exhausted. -/
def create (S : StdSort) (begin_ok end_ok : Bool) (pts : List Point) :
    Option (Option SearchContext) :=
  if !begin_ok || !end_ok then some none
  else
    match SearchContext.new S begin_ok end_ok pts with
    | none => none
    | some sc => some (some sc)

/-- A model of `std::sort` on a range of points compared by `a.rank < b.rank`: any routine
that returns a permutation of its input in which no later point has a smaller rank than an
earlier one. -/
structure StdSortPoints where
  sort : List Point → List Point
  perm : ∀ l, (sort l).Perm l
  sorted : ∀ l, (sort l).Pairwise (fun a b => a.rank ≤ b.rank)

/-- The array after the entries `0 .. l.length - 1` have been replaced by the list `l`. -/
def write_range (l : List Point) (buf : Int → Point) : Int → Point :=
  fun i => if 0 ≤ i ∧ i < l.length then l.getD i.toNat default else buf i

/-- The function `search`.  `sc` and `out_points` are `none` for null pointers.  Returns the
returned count and the destination buffer after the call. -/
def search (RS : StdSortPoints) (sc : Option SearchContext) (rect : Rect) (count : Int)
    (out_points : Option (Int → Point)) : Int × Option (Int → Point) :=
  match out_points, sc with
  | none, _ => (0, none)
  | some out, none => (0, some out)
  | some out, some ctx =>
    let r := ctx.copy_best_points rect count (some out)
    let num_points_copied := r.1
    if num_points_copied ≤ 0 then (0, r.2)
    else
      (num_points_copied,
        r.2.map (fun buf => write_range (RS.sort (seg buf 0 num_points_copied.toNat)) buf))

/-- A concrete sorting routine for points, used to run `search`: the stable insertion sort by
rank. -/
def rank_insertion_sort : StdSortPoints where
  sort := fun l => l.insertionSort (fun p q => p.rank ≤ q.rank)
  perm := fun l => List.perm_insertionSort _ l
  sorted := by
    intro l
    haveI : IsTotal Point (fun p q => p.rank ≤ q.rank) := ⟨fun a b => le_total a.rank b.rank⟩
    haveI : IsTrans Point (fun p q => p.rank ≤ q.rank) := ⟨fun a b c h1 h2 => le_trans h1 h2⟩
    exact List.sorted_insertionSort (fun p q => p.rank ≤ q.rank) l

/-! ## Vocabulary of the statements on the search -/

/-- The exhaustive depth-first traversal the pruned search is compared with: it visits every
node, in the order node, left child, right child, and calls `process_node` on each. -/
def exhaustive_search_rec (rect : Rect) (max_count : Int) : Node → SearchState → SearchState
  | Node.null, st => st
  | Node.mk p l r, st =>
    exhaustive_search_rec rect max_count r
      (exhaustive_search_rec rect max_count l (process_node p rect max_count st))

/-- The search primitive with the exhaustive traversal in place of the pruned one. -/
def exhaustive_find_best_points (t : KdTree) (rect : Rect) (max_count : Int)
    (out_points : Option (Int → Point)) : Int × Option (Int → Point) :=
  match out_points with
  | none => (-1, none)
  | some out =>
    let st := exhaustive_search_rec rect max_count t.root_
      { out_points := out, total_inside := 0, worst_idx := 0, worst_rank := 0 }
    (min st.total_inside max_count, some st.out_points)

/-- The index at which `process_node` writes into the destination buffer, when it writes:
both assignments of the source are `out_points[worst_idx] = p`, under the conditions
repeated here. -/
def write_index (p : Point) (rect : Rect) (max_count : Int) (st : SearchState) : Option Int :=
  if inside_rect rect p then
    if wrap32 (st.total_inside + 1) < max_count then some st.worst_idx
    else if wrap32 (st.total_inside + 1) = max_count ∨ p.rank < st.worst_rank then
      some st.worst_idx
    else none
  else none

/-! ## Vocabulary of the statements on the shape of the tree -/

/-- The height of a tree, counted in levels: 0 for the null pointer, 1 for a leaf. -/
def height : Node → Nat
  | Node.null => 0
  | Node.mk _ l r => 1 + max (height l) (height r)

/-- The statement "the height of every tree `build_tree` produces from `n` points is at
most `c * (log2 n + 1)`". -/
def height_bound (c : Nat) : Prop :=
  ∀ (S : StdSort) (pts : List Point), pts ≠ [] →
    ∀ (root : Node) (tree : KdTree), KdTree.new.build_tree S true true pts = some (root, tree) →
      height root ≤ c * (Nat.log 2 pts.length + 1)

/-! ## Vocabulary of the statements on the calls of `insert_median` -/

/-- The arguments of one call of `insert_median` (the point array apart, which never
changes): the three vectors as they are when the call is entered, the range, the split
dimension, and the recursion budget of the embedding. -/
structure Call where
  indices : indices_t
  other_indices : indices_t
  temp_indices : indices_t
  start : Int
  end_ : Int
  split_x : Bool
  fuel : Nat

/-- The values `(median_idx, median_point_idx)` a call computes (source lines 104-124). -/
def Call.median (points : Int → Point) (c : Call) : Int × Int :=
  shift_median c.indices points c.start c.split_x
    (c.start + (c.end_ - c.start) / 2 - c.start).toNat (c.start + (c.end_ - c.start) / 2)
    (c.indices (c.start + (c.end_ - c.start) / 2))

/-- The values `(temp_indices, lower, upper)` after the partition pass of a call (source
lines 129-150). -/
def Call.partition (points : Int → Point) (c : Call) : indices_t × Int × Int :=
  partition_loop c.other_indices points (points (c.median points).2) (c.median points).2
    c.split_x (c.end_ + 1 - c.start).toNat c.start c.temp_indices c.start
    ((c.median points).1 + 1)

/-- The vector `other_indices` after the copy-back of a call (source lines 154-157). -/
def Call.copied (points : Int → Point) (c : Call) : indices_t :=
  copy_loop (c.partition points).1 (c.end_ + 1 - c.start).toNat c.start c.other_indices

/-- What the call returns. -/
def Call.result (points : Int → Point) (c : Call) :
    Option (Node × indices_t × indices_t × indices_t) :=
  insert_median c.fuel c.indices c.other_indices c.temp_indices points c.start c.end_ c.split_x

/-- The first recursive call a call makes (source line 160), when it makes one. -/
def Call.left (points : Int → Point) (c : Call) : Option Call :=
  if c.end_ > c.start then
    match c.fuel with
    | 0 => none
    | fuel + 1 =>
      some ⟨c.copied points, c.indices, (c.partition points).1, c.start,
        (c.partition points).2.1 - 1, !c.split_x, fuel⟩
  else none

/-- The second recursive call a call makes (source line 161), when it makes one: the
vectors are those the first recursive call returned. -/
def Call.right (points : Int → Point) (c : Call) : Option Call :=
  if c.end_ > c.start then
    match c.fuel with
    | 0 => none
    | fuel + 1 =>
      match insert_median fuel (c.copied points) c.indices (c.partition points).1 points
          c.start ((c.partition points).2.1 - 1) (!c.split_x) with
      | none => none
      | some (_, other_indices2, indices2, temp_indices2) =>
        some ⟨other_indices2, indices2, temp_indices2, (c.median points).1 + 1,
          (c.partition points).2.2 - 1, !c.split_x, fuel⟩
  else none

/-- The calls made, directly or through other calls, in the course of a call. -/
inductive Call.Reaches (points : Int → Point) (c : Call) : Call → Prop
  | self : Call.Reaches points c c
  | left (d e : Call) : Call.Reaches points c d → d.left points = some e →
      Call.Reaches points c e
  | right (d e : Call) : Call.Reaches points c d → d.right points = some e →
      Call.Reaches points c e

/-- The call of `insert_median` that `build_tree` makes (source line 39). -/
def root_call (S : StdSort) (pts : List Point) : Call :=
  ⟨vec (S.sort (fun i => (point_array pts i).x) (iota pts.length)),
    vec (S.sort (fun i => (point_array pts i).y) (iota pts.length)),
    fun _ => 0, 0, (pts.length : Int) - 1, true, pts.length + 1⟩

/-- What one call on a range of `n = a + 1 + b ≥ 2` positions does before it recurses: the
median lands at position `start + a`, not after the midpoint, with the midpoint's split
coordinate; the pass sends `a` entries left and `b` right, each group in the order it had in
the other ordering; nothing outside the range changes; and both recursive calls receive
ranges that satisfy `RangeInv`. -/
structure CallStep (points : Int → Point) (c : Call) (n a b : Nat) : Prop where
  size_eq : n = a + 1 + b
  left_le : (a : Int) ≤ (c.end_ - c.start) / 2
  median_eq : c.median points = (c.start + a, c.indices (c.start + a))
  median_key : key c.split_x (points (c.indices (c.start + a))) =
    key c.split_x (points (c.indices (c.start + (c.end_ - c.start) / 2)))
  bounds : (c.partition points).2 = (c.start + a, c.end_ + 1)
  left_part : seg (c.copied points) c.start a =
    (seg c.other_indices c.start n).filter (fun i => decide (i ≠ c.indices (c.start + a)) &&
      is_greater (points (c.indices (c.start + a))) (points i) c.split_x)
  right_part : seg (c.copied points) (c.start + a + 1) b =
    (seg c.other_indices c.start n).filter (fun i => decide (i ≠ c.indices (c.start + a)) &&
      !is_greater (points (c.indices (c.start + a))) (points i) c.split_x)
  frame : ∀ j, j < c.start ∨ c.end_ < j → c.copied points j = c.other_indices j
  left_lt : ∀ i ∈ seg c.indices c.start a,
    key c.split_x (points i) < key c.split_x (points (c.indices (c.start + a)))
  right_ge : ∀ i ∈ seg c.indices (c.start + a + 1) b,
    key c.split_x (points (c.indices (c.start + a))) ≤ key c.split_x (points i)
  left_inv : RangeInv points (c.copied points) c.indices c.start a (!c.split_x)
  right_inv : RangeInv points (c.copied points) c.indices (c.start + a + 1) b (!c.split_x)

/-- The split-dimension coordinates of a list of points, sorted ascending. -/
def sorted_keys (split_x : Bool) (l : List Point) : List Int :=
  (l.map (key split_x)).insertionSort (· ≤ ·)

/-- The lower-median property at every node: with `m` the number of points of the node's
subtree, the node's split coordinate is the entry at 0-based position `(m - 1) / 2` of the
subtree's split coordinates sorted ascending, and the left subtree holds exactly the points
of the subtree with a strictly smaller split coordinate. -/
def lower_median_at : Bool → Node → Prop
  | _, Node.null => True
  | split_x, Node.mk p l r =>
    key split_x p =
      (sorted_keys split_x (Node.mk p l r).points).getD ((size (Node.mk p l r) - 1) / 2) 0 ∧
    (Node.mk p l r).points.filter (fun q => decide (key split_x q < key split_x p)) =
      l.points ∧
    lower_median_at (!split_x) l ∧ lower_median_at (!split_x) r

/-- The node a call of `insert_median` returns, and every node below it, is placed by the
median rule on the call's primary ordering `indices[start..end]`: that range is sorted
ascending by the split dimension and indexes exactly the points of the node's subtree; the
node's point is `points[indices[mi]]` for a position `mi` that is not after the midpoint
`start + (end - start) / 2`, has the midpoint's split coordinate, and is the first of the
range with that value (every earlier position has a strictly smaller split coordinate); a
range of one position gives a leaf; on a longer range the children are returned by the two
recursive calls, of which the same holds.  A null pointer is returned for an empty range. -/
def first_median_at (points : Int → Point) : Call → Node → Prop
  | c, Node.null => c.end_ < c.start
  | c, Node.mk p l r =>
    (seg c.indices c.start (c.end_ + 1 - c.start).toNat).Pairwise
      (fun i j => key c.split_x (points i) ≤ key c.split_x (points j)) ∧
    (Node.mk p l r).points.Perm
      ((seg c.indices c.start (c.end_ + 1 - c.start).toNat).map points) ∧
    (∃ mi : Int, c.start ≤ mi ∧ mi ≤ c.start + (c.end_ - c.start) / 2 ∧
      p = points (c.indices mi) ∧
      key c.split_x (points (c.indices mi)) =
        key c.split_x (points (c.indices (c.start + (c.end_ - c.start) / 2))) ∧
      ∀ j, c.start ≤ j → j < mi →
        key c.split_x (points (c.indices j)) < key c.split_x (points (c.indices mi))) ∧
    (c.end_ = c.start → l = Node.null ∧ r = Node.null) ∧
    (c.end_ > c.start → ∃ cl cr : Call, c.left points = some cl ∧ c.right points = some cr ∧
      first_median_at points cl l ∧ first_median_at points cr r)

/-- Balance at every node: with `m` the number of points of the node's subtree, the left
subtree has `floor((m-1)/2)` points and the right subtree `ceil((m-1)/2)`. -/
def balanced_at : Node → Prop
  | Node.null => True
  | Node.mk p l r =>
    size l = (size (Node.mk p l r) - 1) / 2 ∧ size r = (size (Node.mk p l r) - 1 + 1) / 2 ∧
    balanced_at l ∧ balanced_at r

/-- What holds of a call of `insert_median` when it is entered and when it returns: the
range `[start, end]` has some length `n ≥ 0` and satisfies `RangeInv` on entry; when the call
partitions (`end > start`) the partition is as `CallStep` describes; the call returns, and
neither ordering differs, after the call, from what it was on entry at any position outside
`[start, end]`. -/
def CallOk (points : Int → Point) (c : Call) : Prop :=
  ∃ n : Nat, c.end_ = c.start + n - 1 ∧
    RangeInv points c.indices c.other_indices c.start n c.split_x ∧
    (c.end_ > c.start → ∃ a b : Nat, CallStep points c n a b) ∧
    ∃ (t : Node) (i1 o1 t1 : indices_t), c.result points = some (t, i1, o1, t1) ∧
      ∀ j, j < c.start ∨ c.end_ < j → i1 j = c.indices j ∧ o1 j = c.other_indices j

/-! ## Concrete inputs -/

/-- The 7-point fixture of the unit test: `id = rank = i`, `x = i`, `y = -i` for `i = 0..6`. -/
def fixture7 : List Point :=
  [⟨0, 0, 0, 0⟩, ⟨1, 1, 1, -1⟩, ⟨2, 2, 2, -2⟩, ⟨3, 3, 3, -3⟩, ⟨4, 4, 4, -4⟩, ⟨5, 5, 5, -5⟩,
    ⟨6, 6, 6, -6⟩]

/-- A rectangle covering every point of the fixtures. -/
def rect_all : Rect := ⟨-100, -100, 100, 100⟩

/-- A destination buffer whose entries all hold a point that is in no fixture. -/
def blank_buffer : Int → Point := fun _ => ⟨-1, 0, 0, 0⟩

/-- Four points with repeated coordinate values in both dimensions. -/
def dup_points : List Point := [⟨0, 0, 1, 1⟩, ⟨1, 1, 1, 1⟩, ⟨2, 2, 1, 0⟩, ⟨3, 3, 0, 1⟩]

/-- The tree shape the unit test expects for the 7-point fixture: root 3; children 1 and 5;
grandchildren 2, 0, 6, 4, all leaves. -/
def fixture7_tree : Node :=
  Node.mk ⟨3, 3, 3, -3⟩
    (Node.mk ⟨1, 1, 1, -1⟩ (Node.mk ⟨2, 2, 2, -2⟩ Node.null Node.null)
      (Node.mk ⟨0, 0, 0, 0⟩ Node.null Node.null))
    (Node.mk ⟨5, 5, 5, -5⟩ (Node.mk ⟨6, 6, 6, -6⟩ Node.null Node.null)
      (Node.mk ⟨4, 4, 4, -4⟩ Node.null Node.null))

/-- A tree of one node whose point has a negative rank. -/
def negative_rank_tree : KdTree := ⟨Node.mk ⟨7, -1, 0, 0⟩ Node.null Node.null⟩

/-- The rectangle that holds the origin only. -/
def rect_origin : Rect := ⟨0, 0, 0, 0⟩

/-! ## Arrays and segments -/

theorem seg_length {α : Type} (a : Int → α) (s : Int) (n : Nat) : (seg a s n).length = n := by
  induction n generalizing s with
  | zero => rfl
  | succ n ih => simp [seg, ih]

theorem seg_append {α : Type} (a : Int → α) (s : Int) (m n : Nat) :
    seg a s (m + n) = seg a s m ++ seg a (s + m) n := by
  induction m generalizing s with
  | zero => simp [seg]
  | succ m ih =>
    have h : m + 1 + n = (m + n) + 1 := by omega
    rw [h]
    simp only [seg, List.cons_append, ih]
    have h2 : s + 1 + (m : Int) = s + ((m + 1 : Nat) : Int) := by push_cast; ring
    rw [h2]

theorem seg_congr {α : Type} (a b : Int → α) (s : Int) (n : Nat)
    (h : ∀ j, s ≤ j → j < s + n → a j = b j) : seg a s n = seg b s n := by
  induction n generalizing s with
  | zero => rfl
  | succ n ih =>
    simp only [seg]
    rw [h s (le_refl _) (by push_cast; omega), ih (s + 1)]
    intro j h1 h2
    exact h j (by omega) (by push_cast; omega)

theorem mem_seg {α : Type} (a : Int → α) (s : Int) (n : Nat) (v : α) :
    v ∈ seg a s n ↔ ∃ j, s ≤ j ∧ j < s + n ∧ a j = v := by
  induction n generalizing s with
  | zero =>
    simp only [seg, List.not_mem_nil, false_iff]
    rintro ⟨j, h1, h2, _⟩
    simp at h2
    omega
  | succ n ih =>
    simp only [seg, List.mem_cons, ih]
    constructor
    · rintro (h | ⟨j, h1, h2, h3⟩)
      · exact ⟨s, le_refl _, by push_cast; omega, h.symm⟩
      · exact ⟨j, by omega, by push_cast; omega, h3⟩
    · rintro ⟨j, h1, h2, h3⟩
      by_cases hj : j = s
      · left; rw [← h3, hj]
      · right; exact ⟨j, by omega, by push_cast at h2; omega, h3⟩

theorem seg_snoc {α : Type} (a : Int → α) (s : Int) (n : Nat) :
    seg a s (n + 1) = seg a s n ++ [a (s + n)] := by
  rw [seg_append]; rfl

theorem seg_map {α β : Type} (f : α → β) (a : Int → α) (s : Int) (n : Nat) :
    (seg a s n).map f = seg (fun j => f (a j)) s n := by
  induction n generalizing s with
  | zero => rfl
  | succ n ih => simp [seg, ih]

/-! ## The loops of `insert_median` -/

theorem is_same_iff (p q : Point) (sx : Bool) : is_same p q sx = true ↔ key sx p = key sx q := by
  cases sx <;> simp [is_same, key]

theorem is_greater_iff (p q : Point) (sx : Bool) :
    is_greater p q sx = true ↔ key sx q < key sx p := by
  cases sx <;> simp [is_greater, key]

theorem shift_median_succ (indices : indices_t) (points : Int → Point) (start : Int) (sx : Bool)
    (n : Nat) (m mpi : Int) :
    shift_median indices points start sx (n + 1) m mpi =
      if m > start then
        if is_same (points mpi) (points (indices (m - 1))) sx = true then
          shift_median indices points start sx n (m - 1) (indices (m - 1))
        else (m, mpi)
      else (m, mpi) := rfl

theorem shift_median_spec (indices : indices_t) (points : Int → Point) (start : Int) (sx : Bool)
    (n : Nat) (m : Int) (hm : start ≤ m) (hn : m - start ≤ n) :
    start ≤ (shift_median indices points start sx n m (indices m)).1 ∧
    (shift_median indices points start sx n m (indices m)).1 ≤ m ∧
    (shift_median indices points start sx n m (indices m)).2 =
      indices (shift_median indices points start sx n m (indices m)).1 ∧
    key sx (points (indices (shift_median indices points start sx n m (indices m)).1)) =
      key sx (points (indices m)) ∧
    ((shift_median indices points start sx n m (indices m)).1 = start ∨
      key sx (points (indices ((shift_median indices points start sx n m (indices m)).1 - 1))) ≠
      key sx (points (indices (shift_median indices points start sx n m (indices m)).1))) := by
  induction n generalizing m with
  | zero =>
    have : m = start := by
      have : m - start ≤ 0 := by exact_mod_cast hn
      omega
    simp [shift_median, this]
  | succ n ih =>
    rw [shift_median_succ]
    by_cases h1 : m > start
    · rw [if_pos h1]
      by_cases h2 : is_same (points (indices m)) (points (indices (m - 1))) sx = true
      · rw [if_pos h2]
        have hn2 : m - 1 - start ≤ (n : Int) := by push_cast at hn; omega
        obtain ⟨a, b, c, d, e⟩ := ih (m - 1) (by omega) hn2
        refine ⟨a, by omega, c, ?_, e⟩
        rw [d]
        exact ((is_same_iff _ _ _).mp h2).symm
      · rw [if_neg h2]
        refine ⟨by show start ≤ m; omega, le_refl _, rfl, rfl, Or.inr ?_⟩
        intro hk
        exact h2 ((is_same_iff _ _ _).mpr hk.symm)
    · rw [if_neg h1]
      exact ⟨hm, le_refl _, rfl, rfl, Or.inl (by show m = start; omega)⟩

theorem copy_loop_spec (temp : indices_t) (n : Nat) (i : Int) (other : indices_t) (j : Int) :
    copy_loop temp n i other j = if i ≤ j ∧ j < i + n then temp j else other j := by
  induction n generalizing i other with
  | zero =>
    simp only [copy_loop]
    rw [if_neg]
    simp
  | succ n ih =>
    simp only [copy_loop]
    rw [ih]
    by_cases h1 : i + 1 ≤ j ∧ j < i + 1 + n
    · rw [if_pos h1, if_pos]
      push_cast; omega
    · rw [if_neg h1]
      by_cases h2 : j = i
      · subst h2
        rw [Function.update_same, if_pos]
        push_cast; omega
      · rw [Function.update_noteq h2, if_neg]
        push_cast; omega

theorem partition_loop_succ (other : indices_t) (points : Int → Point) (median : Point)
    (mpi : Int) (sx : Bool) (n : Nat) (i : Int) (temp : indices_t) (lower upper : Int) :
    partition_loop other points median mpi sx (n + 1) i temp lower upper =
      if other i = mpi then
        partition_loop other points median mpi sx n (i + 1) temp lower upper
      else if is_greater median (points (other i)) sx = true then
        partition_loop other points median mpi sx n (i + 1)
          (Function.update temp lower (other i)) (lower + 1) upper
      else
        partition_loop other points median mpi sx n (i + 1)
          (Function.update temp upper (other i)) lower (upper + 1) := rfl

/-- The single pass of the partition: with `L` the entries of `other[i .. i+n)` strictly
below the median and `U` the remaining ones other than the median itself, the pass
appends `L` at `lower` and `U` at `upper`, in order, and writes nowhere else. -/
theorem partition_loop_spec (other : indices_t) (points : Int → Point) (median : Point)
    (mpi : Int) (sx : Bool) (n : Nat) (i : Int) (temp : indices_t) (lower upper : Int)
    (hlu : lower + ((seg other i n).filter
      (fun c => decide (c ≠ mpi) && is_greater median (points c) sx)).length ≤ upper) :
    (partition_loop other points median mpi sx n i temp lower upper).2.1 =
      lower + ((seg other i n).filter
        (fun c => decide (c ≠ mpi) && is_greater median (points c) sx)).length ∧
    (partition_loop other points median mpi sx n i temp lower upper).2.2 =
      upper + ((seg other i n).filter
        (fun c => decide (c ≠ mpi) && !is_greater median (points c) sx)).length ∧
    seg (partition_loop other points median mpi sx n i temp lower upper).1 lower
      ((seg other i n).filter
        (fun c => decide (c ≠ mpi) && is_greater median (points c) sx)).length =
      (seg other i n).filter (fun c => decide (c ≠ mpi) && is_greater median (points c) sx) ∧
    seg (partition_loop other points median mpi sx n i temp lower upper).1 upper
      ((seg other i n).filter
        (fun c => decide (c ≠ mpi) && !is_greater median (points c) sx)).length =
      (seg other i n).filter (fun c => decide (c ≠ mpi) && !is_greater median (points c) sx) ∧
    (∀ j, (j < lower ∨ (lower + ((seg other i n).filter
        (fun c => decide (c ≠ mpi) && is_greater median (points c) sx)).length ≤ j ∧ j < upper) ∨
        upper + ((seg other i n).filter
        (fun c => decide (c ≠ mpi) && !is_greater median (points c) sx)).length ≤ j) →
      (partition_loop other points median mpi sx n i temp lower upper).1 j = temp j) := by
  induction n generalizing i temp lower upper with
  | zero =>
    simp [partition_loop, seg]
  | succ n ih =>
    rw [partition_loop_succ]
    by_cases h1 : other i = mpi
    · rw [if_pos h1]
      have hf1 : (seg other i (n + 1)).filter
          (fun c => decide (c ≠ mpi) && is_greater median (points c) sx) =
          (seg other (i + 1) n).filter
          (fun c => decide (c ≠ mpi) && is_greater median (points c) sx) := by
        simp [seg, h1]
      have hf2 : (seg other i (n + 1)).filter
          (fun c => decide (c ≠ mpi) && !is_greater median (points c) sx) =
          (seg other (i + 1) n).filter
          (fun c => decide (c ≠ mpi) && !is_greater median (points c) sx) := by
        simp [seg, h1]
      rw [hf1, hf2]
      rw [hf1] at hlu
      exact ih (i + 1) temp lower upper hlu
    · rw [if_neg h1]
      by_cases h2 : is_greater median (points (other i)) sx = true
      · rw [if_pos h2]
        have hf1 : (seg other i (n + 1)).filter
            (fun c => decide (c ≠ mpi) && is_greater median (points c) sx) =
            other i :: (seg other (i + 1) n).filter
            (fun c => decide (c ≠ mpi) && is_greater median (points c) sx) := by
          simp [seg, h1, h2]
        have hf2 : (seg other i (n + 1)).filter
            (fun c => decide (c ≠ mpi) && !is_greater median (points c) sx) =
            (seg other (i + 1) n).filter
            (fun c => decide (c ≠ mpi) && !is_greater median (points c) sx) := by
          simp [seg, h1, h2]
        rw [hf1, hf2]
        rw [hf1] at hlu
        simp only [List.length_cons] at hlu ⊢
        obtain ⟨a, b, c, d, e⟩ := ih (i + 1) (Function.update temp lower (other i)) (lower + 1)
          upper (by push_cast at hlu; omega)
        refine ⟨by rw [a]; push_cast; ring, b, ?_, d, ?_⟩
        · simp only [seg]
          rw [c, e lower (Or.inl (by omega)), Function.update_same]
        · intro j hj
          rw [e j (by push_cast at hj; omega), Function.update_noteq]
          push_cast at hj; omega
      · rw [if_neg h2]
        have h2f : is_greater median (points (other i)) sx = false := by
          simpa using h2
        have hf1 : (seg other i (n + 1)).filter
            (fun c => decide (c ≠ mpi) && is_greater median (points c) sx) =
            (seg other (i + 1) n).filter
            (fun c => decide (c ≠ mpi) && is_greater median (points c) sx) := by
          simp [seg, h2f]
        have hf2 : (seg other i (n + 1)).filter
            (fun c => decide (c ≠ mpi) && !is_greater median (points c) sx) =
            other i :: (seg other (i + 1) n).filter
            (fun c => decide (c ≠ mpi) && !is_greater median (points c) sx) := by
          simp [seg, h1, h2f]
        rw [hf1, hf2]
        rw [hf1] at hlu
        simp only [List.length_cons] at hlu ⊢
        obtain ⟨a, b, c, d, e⟩ := ih (i + 1) (Function.update temp upper (other i)) lower
          (upper + 1) (by omega)
        refine ⟨a, by rw [b]; push_cast; ring, c, ?_, ?_⟩
        · simp only [seg]
          rw [d, e upper (Or.inr (Or.inl ⟨by omega, by omega⟩)), Function.update_same]
        · intro j hj
          rw [e j (by push_cast at hj; omega), Function.update_noteq]
          push_cast at hj; omega

theorem pairwise_seg {α : Type} (R : α → α → Prop) (a : Int → α) (s : Int) (n : Nat)
    (h : (seg a s n).Pairwise R) (j k : Int) (h1 : s ≤ j) (h2 : j < k) (h3 : k < s + n) :
    R (a j) (a k) := by
  induction n generalizing s with
  | zero => simp at h3; omega
  | succ n ih =>
    simp only [seg, List.pairwise_cons] at h
    by_cases hj : j = s
    · subst hj
      exact h.1 (a k) ((mem_seg a (j + 1) n (a k)).mpr ⟨k, by omega, by push_cast at h3; omega, rfl⟩)
    · exact ih (s + 1) h.2 (by omega) (by push_cast at h3; omega)

/-- The three parts of a range around a position `mi = start + a`. -/
theorem seg_split3 {α : Type} (f : Int → α) (start : Int) (a b : Nat) :
    seg f start (a + 1 + b) = seg f start a ++ f (start + a) :: seg f (start + a + 1) b := by
  have h : a + 1 + b = a + (1 + b) := by omega
  rw [h, seg_append]
  have h2 : 1 + b = b + 1 := by omega
  rw [h2]
  simp only [seg]

/-- Facts about one call of `insert_median` on a range of at least two positions: where the
median lands, and what the two recursive calls receive. -/
theorem median_facts (points : Int → Point) (indices other : indices_t) (start : Int) (n : Nat)
    (sx : Bool) (hn : 2 ≤ n) (inv : RangeInv points indices other start n sx)
    (mi : Int) (hmi1 : start ≤ mi) (hmi2 : mi ≤ start + ((start + n - 1) - start) / 2)
    (hmi3 : mi = start ∨ key sx (points (indices (mi - 1))) ≠ key sx (points (indices mi))) :
    ∃ a b : Nat, mi = start + a ∧ n = a + 1 + b ∧
      (∀ c ∈ seg indices start a, key sx (points c) < key sx (points (indices mi))) ∧
      (∀ c ∈ seg indices (mi + 1) b, key sx (points (indices mi)) ≤ key sx (points c)) ∧
      (∀ c ∈ seg indices (mi + 1) b, c ≠ indices mi) := by
  have hdiv : ((start + n - 1) - start) / 2 < (n : Int) := by
    have : (start + n - 1) - start = (n : Int) - 1 := by ring
    rw [this]
    omega
  refine ⟨(mi - start).toNat, n - (mi - start).toNat - 1, by omega, by omega, ?_, ?_, ?_⟩
  · intro c hc
    obtain ⟨j, hj1, hj2, hj3⟩ := (mem_seg _ _ _ _).mp hc
    have hjm : j < mi := by omega
    rcases hmi3 with h | h
    · omega
    · have h1 : key sx (points (indices (mi - 1))) ≤ key sx (points (indices mi)) :=
        pairwise_seg _ indices start n inv.sorted_ind (mi - 1) mi (by omega) (by omega) (by omega)
      have h2 : key sx (points (indices j)) ≤ key sx (points (indices (mi - 1))) := by
        by_cases hjj : j = mi - 1
        · rw [hjj]
        · exact pairwise_seg _ indices start n inv.sorted_ind j (mi - 1) hj1 (by omega) (by omega)
      rw [← hj3]
      exact lt_of_le_of_lt h2 (lt_of_le_of_ne h1 h)
  · intro c hc
    obtain ⟨j, hj1, hj2, hj3⟩ := (mem_seg _ _ _ _).mp hc
    rw [← hj3]
    exact pairwise_seg _ indices start n inv.sorted_ind mi j hmi1 (by omega) (by omega)
  · intro c hc
    obtain ⟨j, hj1, hj2, hj3⟩ := (mem_seg _ _ _ _).mp hc
    rw [← hj3]
    have := pairwise_seg (fun x y => x ≠ y) indices start n inv.nodup mi j hmi1 (by omega)
      (by omega)
    exact fun h => this h.symm

/-- The entries sent left by the partition are, up to order, the entries before the median in
the primary ordering; the entries sent right are those after it. -/
theorem partition_facts (points : Int → Point) (indices other : indices_t) (start : Int)
    (n : Nat) (sx : Bool) (inv : RangeInv points indices other start n sx) (a b : Nat)
    (hn : n = a + 1 + b)
    (hlt : ∀ c ∈ seg indices start a,
      key sx (points c) < key sx (points (indices (start + a))))
    (hge : ∀ c ∈ seg indices (start + a + 1) b,
      key sx (points (indices (start + a))) ≤ key sx (points c))
    (hne : ∀ c ∈ seg indices (start + a + 1) b, c ≠ indices (start + a)) :
    ((seg other start n).filter (fun c => decide (c ≠ indices (start + a)) &&
        is_greater (points (indices (start + a))) (points c) sx)).Perm (seg indices start a) ∧
    ((seg other start n).filter (fun c => decide (c ≠ indices (start + a)) &&
        !is_greater (points (indices (start + a))) (points c) sx)).Perm
      (seg indices (start + a + 1) b) := by
  subst hn
  have hsplit := seg_split3 indices start a b
  constructor
  · refine (List.Perm.filter _ inv.perm.symm).trans ?_
    rw [hsplit, List.filter_append, List.filter_cons]
    have h1 : (seg indices start a).filter (fun c => decide (c ≠ indices (start + a)) &&
        is_greater (points (indices (start + a))) (points c) sx) = seg indices start a := by
      rw [List.filter_eq_self]
      intro c hc
      have hk := hlt c hc
      have hne1 : c ≠ indices (start + a) := by
        intro h; rw [h] at hk; exact lt_irrefl _ hk
      simp [hne1, (is_greater_iff _ _ _).mpr hk]
    have h2 : (seg indices (start + a + 1) b).filter (fun c => decide (c ≠ indices (start + a)) &&
        is_greater (points (indices (start + a))) (points c) sx) = [] := by
      rw [List.filter_eq_nil_iff]
      intro c hc
      have hk := hge c hc
      have : ¬ is_greater (points (indices (start + a))) (points c) sx = true := by
        rw [is_greater_iff]; exact not_lt.mpr hk
      simp [this]
    rw [h1, h2]
    simp
  · refine (List.Perm.filter _ inv.perm.symm).trans ?_
    rw [hsplit, List.filter_append, List.filter_cons]
    have h1 : (seg indices start a).filter (fun c => decide (c ≠ indices (start + a)) &&
        !is_greater (points (indices (start + a))) (points c) sx) = [] := by
      rw [List.filter_eq_nil_iff]
      intro c hc
      have hk := hlt c hc
      simp [(is_greater_iff _ _ _).mpr hk]
    have h2 : (seg indices (start + a + 1) b).filter (fun c => decide (c ≠ indices (start + a)) &&
        !is_greater (points (indices (start + a))) (points c) sx) =
        seg indices (start + a + 1) b := by
      rw [List.filter_eq_self]
      intro c hc
      have hk := hge c hc
      have : ¬ is_greater (points (indices (start + a))) (points c) sx = true := by
        rw [is_greater_iff]; exact not_lt.mpr hk
      simp [this, hne c hc]
    rw [h1, h2]
    simp

/-- One call of `insert_median` on a range of at least two positions, in terms of the values
its loops compute and of the results of its two recursive calls. -/
theorem insert_median_node (fuel : Nat) (indices other temp : indices_t) (points : Int → Point)
    (start end_ : Int) (sx : Bool) (hgt : end_ > start) (mi mpi : Int)
    (hsm : shift_median indices points start sx (start + (end_ - start) / 2 - start).toNat
      (start + (end_ - start) / 2) (indices (start + (end_ - start) / 2)) = (mi, mpi))
    (temp1 : indices_t) (lower upper : Int)
    (hpl : partition_loop other points (points mpi) mpi sx (end_ + 1 - start).toNat start temp
      start (mi + 1) = (temp1, lower, upper))
    (left : Node) (o2 i2 t2 : indices_t)
    (hL : insert_median fuel (copy_loop temp1 (end_ + 1 - start).toNat start other) indices temp1
      points start (lower - 1) (!sx) = some (left, o2, i2, t2))
    (right : Node) (o3 i3 t3 : indices_t)
    (hR : insert_median fuel o2 i2 t2 points (mi + 1) (upper - 1) (!sx) =
      some (right, o3, i3, t3)) :
    insert_median (fuel + 1) indices other temp points start end_ sx =
      some (Node.mk (points mpi) left right, i3, o3, t3) := by
  simp only [insert_median, if_pos hgt, hsm, hpl, hL, hR]

theorem insert_median_leaf (fuel : Nat) (indices other temp : indices_t) (points : Int → Point)
    (start : Int) (sx : Bool) :
    insert_median (fuel + 1) indices other temp points start start sx =
      some (Node.mk (points (indices start)) Node.null Node.null, indices, other, temp) := by
  simp [insert_median]

theorem insert_median_empty (fuel : Nat) (indices other temp : indices_t) (points : Int → Point)
    (start end_ : Int) (sx : Bool) (h : end_ < start) :
    insert_median (fuel + 1) indices other temp points start end_ sx =
      some (Node.null, indices, other, temp) := by
  have h1 : ¬ end_ > start := by omega
  have h2 : ¬ start = end_ := by omega
  simp [insert_median, h1, h2]

theorem RangeInv_of_seg_eq (points : Int → Point) (i1 o1 i2 o2 : indices_t) (s : Int) (n : Nat)
    (sx : Bool) (hi : seg i2 s n = seg i1 s n) (ho : seg o2 s n = seg o1 s n)
    (inv : RangeInv points i1 o1 s n sx) : RangeInv points i2 o2 s n sx := by
  refine ⟨?_, ?_, ?_, ?_⟩
  · rw [hi]; exact inv.sorted_ind
  · rw [ho]; exact inv.sorted_oth
  · rw [hi, ho]; exact inv.perm
  · rw [hi]; exact inv.nodup

/-- Correctness of `insert_median`: on a range that satisfies `RangeInv`, a budget larger than
the range suffices, the tree holds exactly the points the range indexes, it satisfies the kd
split invariant, and the two orderings are untouched outside the range. -/
theorem insert_median_spec (points : Int → Point) (fuel : Nat) :
    ∀ (indices other temp : indices_t) (start : Int) (n : Nat) (sx : Bool),
      n < fuel → RangeInv points indices other start n sx →
      ∃ (t : Node) (i1 o1 t1 : indices_t),
        insert_median fuel indices other temp points start (start + n - 1) sx =
          some (t, i1, o1, t1) ∧
        t.points.Perm ((seg indices start n).map points) ∧ kd_inv sx t ∧
        (∀ j, j < start ∨ start + n ≤ j → i1 j = indices j) ∧
        (∀ j, j < start ∨ start + n ≤ j → o1 j = other j) := by
  induction fuel with
  | zero => intro _ _ _ _ n _ h; omega
  | succ fuel ih =>
    intro indices other temp start n sx hfuel inv
    rcases Nat.lt_or_ge n 2 with hn | hn
    · rcases Nat.lt_or_ge n 1 with hn0 | hn1
      · have h0 : n = 0 := by omega
        subst h0
        refine ⟨Node.null, indices, other, temp,
          insert_median_empty _ _ _ _ _ _ _ _ (by push_cast; omega), ?_, trivial,
          fun _ _ => rfl, fun _ _ => rfl⟩
        simp [Node.points, seg]
      · have h1 : n = 1 := by omega
        subst h1
        have he : start + ((1 : Nat) : Int) - 1 = start := by push_cast; ring
        rw [he]
        refine ⟨_, indices, other, temp, insert_median_leaf _ _ _ _ _ _ _, ?_, ?_,
          fun _ _ => rfl, fun _ _ => rfl⟩
        · simp [Node.points, seg]
        · simp [kd_inv, Node.points]
    · have hmid1 : start ≤ start + (start + n - 1 - start) / 2 := by omega
      have hmid2 : (start + (start + (n : Int) - 1 - start) / 2 - start) ≤
          ((start + (start + (n : Int) - 1 - start) / 2 - start).toNat : Int) := by omega
      obtain ⟨s1, s2, s3, s4, s5⟩ := shift_median_spec indices points start sx
        (start + (start + n - 1 - start) / 2 - start).toNat
        (start + (start + n - 1 - start) / 2) hmid1 hmid2
      generalize hsm : shift_median indices points start sx
        (start + (start + (n : Int) - 1 - start) / 2 - start).toNat
        (start + (start + n - 1 - start) / 2)
        (indices (start + (start + n - 1 - start) / 2)) = sm at s1 s2 s3 s4 s5
      obtain ⟨mi, mpi⟩ := sm
      simp only at s1 s2 s3 s4 s5
      subst s3
      obtain ⟨a, b, hmi, hnab, hlt, hge, hne⟩ := median_facts points indices other start n sx hn
        inv mi s1 s2 s5
      subst hmi
      obtain ⟨hLp, hUp⟩ := partition_facts points indices other start n sx inv a b hnab hlt hge
        hne
      have hLlen := hLp.length_eq
      have hUlen := hUp.length_eq
      rw [seg_length] at hLlen hUlen
      have hnn : (start + (n : Int) - 1 + 1 - start).toNat = n := by omega
      obtain ⟨p1, p2, p3, p4, p5⟩ := partition_loop_spec other points
        (points (indices (start + a))) (indices (start + a)) sx n start temp start
        (start + a + 1) (by rw [hLlen]; omega)
      generalize hpl : partition_loop other points (points (indices (start + a)))
        (indices (start + a)) sx n start temp start (start + a + 1) = pl at p1 p2 p3 p4 p5
      obtain ⟨temp1, lower, upper⟩ := pl
      simp only at p1 p2 p3 p4 p5
      rw [hLlen] at p1 p3
      rw [hUlen] at p2 p4
      -- the other ordering after the copy-back
      have hcopy := copy_loop_spec temp1 n start other
      have hoL : seg (copy_loop temp1 n start other) start a = seg temp1 start a := by
        apply seg_congr
        intro j h1 h2
        rw [hcopy, if_pos]
        omega
      have hoU : seg (copy_loop temp1 n start other) (start + a + 1) b =
          seg temp1 (start + a + 1) b := by
        apply seg_congr
        intro j h1 h2
        rw [hcopy, if_pos]
        omega
      have hsplit := seg_split3 indices start a b
      have hsorted := inv.sorted_ind
      have hnodup := inv.nodup
      rw [hnab, hsplit] at hsorted hnodup
      have hsortedO := inv.sorted_oth
      -- the range handed to the left call
      have invL : RangeInv points (copy_loop temp1 n start other) indices start a (!sx) := by
        refine ⟨?_, ?_, ?_, ?_⟩
        · rw [hoL, p3]
          exact List.Pairwise.sublist (List.filter_sublist _) hsortedO
        · rw [Bool.not_not]
          exact (List.pairwise_append.mp hsorted).1
        · rw [hoL, p3]; exact hLp
        · rw [hoL, p3]
          exact (List.Perm.nodup_iff hLp).mpr (List.nodup_append.mp hnodup).1
      obtain ⟨tl, o2, i2, t2, hLcall, hLpts, hLkd, hLf1, hLf2⟩ :=
        ih (copy_loop temp1 n start other) indices temp1 start a (!sx) (by omega) invL
      -- the range handed to the right call
      have invR0 : RangeInv points (copy_loop temp1 n start other) indices (start + a + 1) b
          (!sx) := by
        have hsuf := (List.pairwise_cons.mp (List.pairwise_append.mp hsorted).2.1).2
        have hsufnd := (List.nodup_cons.mp (List.nodup_append.mp hnodup).2.1).2
        refine ⟨?_, ?_, ?_, ?_⟩
        · rw [hoU, p4]
          exact List.Pairwise.sublist (List.filter_sublist _) hsortedO
        · rw [Bool.not_not]
          exact hsuf
        · rw [hoU, p4]; exact hUp
        · rw [hoU, p4]
          exact (List.Perm.nodup_iff hUp).mpr hsufnd
      have invR : RangeInv points o2 i2 (start + a + 1) b (!sx) := by
        refine RangeInv_of_seg_eq points _ _ o2 i2 _ _ _ ?_ ?_ invR0
        · apply seg_congr
          intro j h1 h2
          exact hLf1 j (Or.inr (by omega))
        · apply seg_congr
          intro j h1 h2
          exact hLf2 j (Or.inr (by omega))
      obtain ⟨tr, o3, i3, t3, hRcall, hRpts, hRkd, hRf1, hRf2⟩ :=
        ih o2 i2 t2 (start + a + 1) b (!sx) (by omega) invR
      have hlow : lower - 1 = start + a - 1 := by rw [p1]
      have hupp : upper - 1 = start + a + 1 + b - 1 := by rw [p2]
      have hcall := insert_median_node fuel indices other temp points start (start + n - 1) sx
        (by omega) (start + a) (indices (start + a)) hsm temp1 lower upper
        (by rw [hnn]; exact hpl) tl o2 i2 t2 (by rw [hnn, hlow]; exact hLcall) tr o3 i3 t3
        (by rw [hupp]; exact hRcall)
      have hLpts2 : tl.points.Perm ((seg indices start a).map points) :=
        hLpts.trans (List.Perm.map points invL.perm)
      have hRpts2 : tr.points.Perm ((seg indices (start + a + 1) b).map points) := by
        refine hRpts.trans (List.Perm.map points ?_)
        have : seg o2 (start + a + 1) b = seg (copy_loop temp1 n start other) (start + a + 1) b := by
          apply seg_congr
          intro j h1 h2
          exact hLf1 j (Or.inr (by omega))
        rw [this]
        exact invR0.perm
      refine ⟨_, i3, o3, t3, hcall, ?_, ?_, ?_, ?_⟩
      · rw [hnab, hsplit, List.map_append, List.map_cons]
        simp only [Node.points]
        exact (List.Perm.cons _ (List.Perm.append hLpts2 hRpts2)).trans
          (List.perm_middle).symm
      · refine ⟨?_, ?_, hLkd, hRkd⟩
        · intro q hq
          obtain ⟨c, hc, rfl⟩ := List.mem_map.mp ((List.Perm.mem_iff hLpts2).mp hq)
          exact hlt c hc
        · intro q hq
          obtain ⟨c, hc, rfl⟩ := List.mem_map.mp ((List.Perm.mem_iff hRpts2).mp hq)
          exact hge c hc
      · intro j hj
        rw [hRf2 j (by omega), hLf2 j (by omega)]
      · intro j hj
        rw [hRf1 j (by omega), hLf1 j (by omega), hcopy, if_neg]
        omega

/-! ## `build_tree` -/

theorem seg_of_getD {α : Type} (d : α) (l : List α) (f : Int → α) (s : Int)
    (h : ∀ i : Nat, i < l.length → f (s + i) = l.getD i d) : seg f s l.length = l := by
  induction l generalizing s with
  | nil => rfl
  | cons a l ih =>
    simp only [List.length_cons, seg]
    have h0 := h 0 (by simp)
    simp only [Nat.cast_zero, add_zero, List.getD_cons_zero] at h0
    rw [h0, ih (s + 1)]
    intro i hi
    have := h (i + 1) (by simp; omega)
    simp only [List.getD_cons_succ] at this
    rw [← this]
    congr 1
    push_cast
    ring

theorem seg_vec (l : List Int) : seg (vec l) 0 l.length = l := by
  apply seg_of_getD 0
  intro i _
  have h : ¬ ((0 : Int) + (i : Int) < 0) := by omega
  simp only [vec, if_neg h]
  congr 1
  omega

theorem seg_point_array (pts : List Point) : seg (point_array pts) 0 pts.length = pts := by
  apply seg_of_getD default
  intro i _
  have h : ¬ ((0 : Int) + (i : Int) < 0) := by omega
  simp only [point_array, if_neg h]
  congr 1
  omega

theorem seg_id_eq_iota (n : Nat) (s : Nat) :
    seg (fun j : Int => j) s n = (List.range' s n).map Int.ofNat := by
  induction n generalizing s with
  | zero => rfl
  | succ n ih =>
    simp only [seg, List.range'_succ, List.map_cons]
    have := ih (s + 1)
    push_cast at this
    rw [this]
    rfl

theorem iota_eq_seg (n : Nat) : iota n = seg (fun j : Int => j) 0 n := by
  have := seg_id_eq_iota n 0
  simp only [Nat.cast_zero] at this
  rw [this, iota, List.range_eq_range']

theorem map_point_array_iota (pts : List Point) :
    (iota pts.length).map (point_array pts) = pts := by
  rw [iota_eq_seg, seg_map]
  exact seg_point_array pts

theorem iota_nodup (n : Nat) : (iota n).Nodup := by
  unfold iota
  exact (List.nodup_range n).map (fun a b h => Int.ofNat.inj h)

theorem iota_length (n : Nat) : (iota n).length = n := by
  simp [iota]

theorem size_eq_length_points (t : Node) : size t = t.points.length := by
  induction t with
  | null => rfl
  | mk p l r ihl ihr =>
    simp only [size, Node.points, List.length_cons, List.length_append, ihl, ihr]
    omega

/-- What `build_tree` does on a non-empty sequence reached through two non-null pointers,
whatever the prior state of the tree object: the construction ends, `root_` is the returned
root, the tree holds exactly the input points and satisfies the kd split invariant. -/
theorem build_tree_spec (t : KdTree) (S : StdSort) (pts : List Point) (h : pts ≠ []) :
    ∃ root : Node, t.build_tree S true true pts = some (root, ⟨root⟩) ∧
      root.points.Perm pts ∧ kd_inv true root := by
  have hlen : 0 < pts.length := List.length_pos.mpr h
  have hxp := S.perm (fun i => (point_array pts i).x) (iota pts.length)
  have hyp := S.perm (fun i => (point_array pts i).y) (iota pts.length)
  have hxs := S.sorted (fun i => (point_array pts i).x) (iota pts.length)
  have hys := S.sorted (fun i => (point_array pts i).y) (iota pts.length)
  have hxl : (S.sort (fun i => (point_array pts i).x) (iota pts.length)).length = pts.length := by
    rw [hxp.length_eq, iota_length]
  have hyl : (S.sort (fun i => (point_array pts i).y) (iota pts.length)).length = pts.length := by
    rw [hyp.length_eq, iota_length]
  have hsx := seg_vec (S.sort (fun i => (point_array pts i).x) (iota pts.length))
  have hsy := seg_vec (S.sort (fun i => (point_array pts i).y) (iota pts.length))
  rw [hxl] at hsx
  rw [hyl] at hsy
  have inv : RangeInv (point_array pts)
      (vec (S.sort (fun i => (point_array pts i).x) (iota pts.length)))
      (vec (S.sort (fun i => (point_array pts i).y) (iota pts.length))) 0 pts.length true := by
    refine ⟨?_, ?_, ?_, ?_⟩
    · rw [hsx]; exact hxs
    · rw [hsy]; exact hys
    · rw [hsx, hsy]; exact hxp.trans hyp.symm
    · rw [hsx]; exact (List.Perm.nodup_iff hxp).mpr (iota_nodup _)
  obtain ⟨root, i1, o1, t1, hcall, hpts, hkd, _, _⟩ := insert_median_spec (point_array pts)
    (pts.length + 1) _ _ (fun _ => 0) 0 pts.length true (by omega) inv
  refine ⟨root, ?_, ?_, hkd⟩
  · have hle : ¬ pts.length ≤ 0 := by omega
    have he : (0 : Int) + (pts.length : Int) - 1 = (pts.length : Int) - 1 := by ring
    rw [he] at hcall
    simp only [KdTree.build_tree, Bool.not_true, Bool.or_self, Bool.false_eq_true, if_false, hle,
      hcall]
  · rw [hsx] at hpts
    refine hpts.trans ((List.Perm.map _ hxp).trans ?_)
    rw [map_point_array_iota]

/-! ## The traversal of the search -/

theorem process_node_outside (p : Point) (rect : Rect) (k : Int) (st : SearchState)
    (h : inside_rect rect p = false) : process_node p rect k st = st := by
  simp [process_node, h]

/-- The recursive search is the sequence of `process_node` calls on the visited nodes. -/
theorem find_best_points_rec_eq (rect : Rect) (k : Int) (t : Node) (sx : Bool)
    (st : SearchState) :
    find_best_points_rec rect k t sx st = process_all rect k (visited rect t sx) st := by
  induction t generalizing sx st with
  | null => rfl
  | mk p l r ihl ihr =>
    cases sx
    · simp only [find_best_points_rec, visited, process_all, Bool.false_eq_true, if_false,
        List.foldl_cons, List.foldl_append, Bool.not_false]
      by_cases h1 : rect.ly < p.y <;> by_cases h2 : rect.hy ≥ p.y <;>
        simp [h1, h2, ihl, ihr, process_all]
    · simp only [find_best_points_rec, visited, process_all, if_true,
        List.foldl_cons, List.foldl_append, Bool.not_true]
      by_cases h1 : rect.lx < p.x <;> by_cases h2 : rect.hx ≥ p.x <;>
        simp [h1, h2, ihl, ihr, process_all]

/-- Points outside the rectangle leave the state alone: processing a sequence is processing
its matches. -/
theorem process_all_matching (rect : Rect) (k : Int) (l : List Point) (st : SearchState) :
    process_all rect k l st = process_all rect k (matching rect l) st := by
  induction l generalizing st with
  | nil => rfl
  | cons p l ih =>
    unfold matching
    by_cases h : inside_rect rect p = true
    · rw [List.filter_cons_of_pos h]
      simp only [process_all, List.foldl_cons]
      exact ih _
    · rw [List.filter_cons_of_neg h]
      simp only [process_all, List.foldl_cons]
      rw [process_node_outside p rect k st (by simpa using h)]
      exact ih _

theorem inside_rect_iff (rect : Rect) (p : Point) :
    inside_rect rect p = true ↔ rect.lx ≤ p.x ∧ p.x ≤ rect.hx ∧ rect.ly ≤ p.y ∧ p.y ≤ rect.hy := by
  simp [inside_rect, and_assoc]

/-- Pruning is sound on a tree with the kd split invariant: the matches among the visited
nodes are the matches of the whole tree, in the same order. -/
theorem visited_matching (rect : Rect) (t : Node) (sx : Bool) (h : kd_inv sx t) :
    matching rect (visited rect t sx) = matching rect t.points := by
  induction t generalizing sx with
  | null => rfl
  | mk p l r ihl ihr =>
    obtain ⟨hl, hr, kl, kr⟩ := h
    have el := ihl (!sx) kl
    have er := ihr (!sx) kr
    unfold matching at el er ⊢
    simp only [visited, Node.points, List.filter_cons, List.filter_append]
    have hL : List.filter (inside_rect rect)
        (if (if sx = true then rect.lx < p.x else rect.ly < p.y) then visited rect l (!sx)
          else []) = List.filter (inside_rect rect) l.points := by
      by_cases hc : (if sx = true then rect.lx < p.x else rect.ly < p.y)
      · rw [if_pos hc]; exact el
      · rw [if_neg hc]
        symm
        rw [List.filter_nil, List.filter_eq_nil_iff]
        intro q hq hin
        have hk := hl q hq
        rw [inside_rect_iff] at hin
        cases sx <;> simp [key] at hk hc <;> omega
    have hR : List.filter (inside_rect rect)
        (if (if sx = true then rect.hx ≥ p.x else rect.hy ≥ p.y) then visited rect r (!sx)
          else []) = List.filter (inside_rect rect) r.points := by
      by_cases hc : (if sx = true then rect.hx ≥ p.x else rect.hy ≥ p.y)
      · rw [if_pos hc]; exact er
      · rw [if_neg hc]
        symm
        rw [List.filter_nil, List.filter_eq_nil_iff]
        intro q hq hin
        have hk := hr q hq
        rw [inside_rect_iff] at hin
        cases sx <;> simp [key] at hk hc <;> omega
    rw [hL, hR]

/-! ## The bounded buffer -/

theorem find_worst_loop_succ (points : Int → Point) (n : Nat) (i cw ci : Int) :
    find_worst_loop points (n + 1) i cw ci =
      if (points i).rank > cw then find_worst_loop points n (i + 1) (points i).rank i
      else find_worst_loop points n (i + 1) cw ci := rfl

theorem find_worst_loop_spec (points : Int → Point) (n : Nat) (i cw ci : Int) :
    (∀ j, i ≤ j → j < i + n → (points j).rank ≤ (find_worst_loop points n i cw ci).1) ∧
    cw ≤ (find_worst_loop points n i cw ci).1 ∧
    (((find_worst_loop points n i cw ci).1 = cw ∧ (find_worst_loop points n i cw ci).2 = ci) ∨
     (i ≤ (find_worst_loop points n i cw ci).2 ∧ (find_worst_loop points n i cw ci).2 < i + n ∧
      (points (find_worst_loop points n i cw ci).2).rank = (find_worst_loop points n i cw ci).1 ∧
      cw < (find_worst_loop points n i cw ci).1 ∧
      ∀ j, i ≤ j → j < (find_worst_loop points n i cw ci).2 →
        (points j).rank < (find_worst_loop points n i cw ci).1)) := by
  induction n generalizing i cw ci with
  | zero =>
    refine ⟨?_, le_refl _, Or.inl ⟨rfl, rfl⟩⟩
    intro j h1 h2
    simp at h2
    omega
  | succ n ih =>
    rw [find_worst_loop_succ]
    by_cases h : (points i).rank > cw
    · rw [if_pos h]
      obtain ⟨a, b, c⟩ := ih (i + 1) (points i).rank i
      generalize find_worst_loop points n (i + 1) (points i).rank i = res at a b c
      refine ⟨?_, by omega, Or.inr ?_⟩
      · intro j h1 h2
        by_cases hj : j = i
        · rw [hj]; exact b
        · exact a j (by omega) (by push_cast at h2; omega)
      · rcases c with ⟨c1, c2⟩ | ⟨c1, c2, c3, c4, c5⟩
        · refine ⟨by omega, by push_cast; omega, by rw [c2, c1], by omega, ?_⟩
          intro j h1 h2
          omega
        · refine ⟨by omega, by push_cast; omega, c3, by omega, ?_⟩
          intro j h1 h2
          by_cases hj : j = i
          · rw [hj]; exact c4
          · exact c5 j (by omega) h2
    · rw [if_neg h]
      obtain ⟨a, b, c⟩ := ih (i + 1) cw ci
      generalize find_worst_loop points n (i + 1) cw ci = res at a b c
      refine ⟨?_, b, ?_⟩
      · intro j h1 h2
        by_cases hj : j = i
        · rw [hj]; omega
        · exact a j (by omega) (by push_cast at h2; omega)
      · rcases c with c | ⟨c1, c2, c3, c4, c5⟩
        · exact Or.inl c
        · refine Or.inr ⟨by omega, by push_cast; omega, c3, c4, ?_⟩
          intro j h1 h2
          by_cases hj : j = i
          · rw [hj]; omega
          · exact c5 j (by omega) h2

/-- On a buffer of `k ≥ 1` entries whose ranks are `int32_t` values, `find_worst_rank` returns
the highest rank and the lowest position holding it. -/
theorem find_worst_rank_spec (points : Int → Point) (k : Int) (hk : 1 ≤ k)
    (hr : ∀ j, 0 ≤ j → j < k → INT32_MIN ≤ (points j).rank) :
    0 ≤ (find_worst_rank points k).2 ∧ (find_worst_rank points k).2 < k ∧
    (points (find_worst_rank points k).2).rank = (find_worst_rank points k).1 ∧
    (∀ j, 0 ≤ j → j < k → (points j).rank ≤ (find_worst_rank points k).1) ∧
    (∀ j, 0 ≤ j → j < (find_worst_rank points k).2 →
      (points j).rank < (find_worst_rank points k).1) := by
  unfold find_worst_rank
  obtain ⟨a, b, c⟩ := find_worst_loop_spec points k.toNat 0 INT32_MIN 0
  generalize find_worst_loop points k.toNat 0 INT32_MIN 0 = res at a b c
  have hkk : (0 : Int) + (k.toNat : Int) = k := by omega
  rw [hkk] at a c
  rcases c with ⟨c1, c2⟩ | ⟨c1, c2, c3, c4, c5⟩
  · have h0 := a 0 (le_refl _) (by omega)
    have h1 := hr 0 (le_refl _) (by omega)
    refine ⟨by omega, by omega, by rw [c2]; omega, a, ?_⟩
    intro j h2 h3
    omega
  · exact ⟨c1, c2, c3, a, c5⟩

theorem wrap32_of_range (v : Int) (h1 : -2147483648 ≤ v) (h2 : v < 2147483648) :
    wrap32 v = v := by
  unfold wrap32
  omega

theorem process_node_fill (p : Point) (rect : Rect) (k : Int) (st : SearchState)
    (hin : inside_rect rect p = true) (h : wrap32 (st.total_inside + 1) < k) :
    process_node p rect k st =
      { out_points := Function.update st.out_points st.worst_idx p
        total_inside := wrap32 (st.total_inside + 1)
        worst_idx := st.worst_idx + 1
        worst_rank := st.worst_rank } := by
  simp [process_node, hin, h]

theorem process_node_replace (p : Point) (rect : Rect) (k : Int) (st : SearchState)
    (hin : inside_rect rect p = true) (h : ¬ wrap32 (st.total_inside + 1) < k)
    (h2 : wrap32 (st.total_inside + 1) = k ∨ p.rank < st.worst_rank) :
    process_node p rect k st =
      { out_points := Function.update st.out_points st.worst_idx p
        total_inside := wrap32 (st.total_inside + 1)
        worst_idx := (find_worst_rank (Function.update st.out_points st.worst_idx p) k).2
        worst_rank := (find_worst_rank (Function.update st.out_points st.worst_idx p) k).1 } := by
  simp only [process_node, hin, if_true, if_neg h, if_pos h2]

theorem process_node_skip (p : Point) (rect : Rect) (k : Int) (st : SearchState)
    (hin : inside_rect rect p = true) (h : ¬ wrap32 (st.total_inside + 1) < k)
    (h2 : ¬ (wrap32 (st.total_inside + 1) = k ∨ p.rank < st.worst_rank)) :
    process_node p rect k st = { st with total_inside := wrap32 (st.total_inside + 1) } := by
  simp only [process_node, hin, if_true, if_neg h, if_neg h2]

theorem seg_update_outside {α : Type} (f : Int → α) (i : Int) (v : α) (s : Int) (n : Nat)
    (h : i < s ∨ s + n ≤ i) : seg (Function.update f i v) s n = seg f s n := by
  apply seg_congr
  intro j h1 h2
  rw [Function.update_noteq]
  omega

/-- Overwriting one entry of a range exchanges the old entry for the new one. -/
theorem seg_update_perm {α : Type} (f : Int → α) (i : Int) (v : α) (s : Int) (n : Nat)
    (h1 : s ≤ i) (h2 : i < s + n) :
    (v :: seg f s n).Perm (f i :: seg (Function.update f i v) s n) := by
  induction n generalizing s with
  | zero => simp at h2; omega
  | succ n ih =>
    simp only [seg]
    by_cases hi : i = s
    · subst hi
      rw [Function.update_same, seg_update_outside f i v (i + 1) n (Or.inl (by omega))]
      exact List.Perm.swap _ _ _
    · rw [Function.update_noteq (Ne.symm hi)]
      have := ih (s + 1) (by omega) (by push_cast at h2; omega)
      exact (List.Perm.swap _ _ _).trans ((List.Perm.cons _ this).trans (List.Perm.swap _ _ _))

theorem mem_seg_update {α : Type} (f : Int → α) (i : Int) (v : α) (s : Int) (n : Nat) (q : α)
    (h : q ∈ seg (Function.update f i v) s n) : q = v ∨ q ∈ seg f s n := by
  obtain ⟨j, h1, h2, h3⟩ := (mem_seg _ _ _ _).mp h
  by_cases hj : j = i
  · left; rw [← h3, hj, Function.update_same]
  · right
    rw [Function.update_noteq hj] at h3
    exact (mem_seg _ _ _ _).mpr ⟨j, h1, h2, h3⟩

/-- One more match preserves the bookkeeping of the search. -/
theorem process_node_inv (rect : Rect) (k : Int) (l : List Point) (p : Point)
    (st : SearchState) (hin : inside_rect rect p = true)
    (hlen : (l.length : Int) + 1 < 2147483648) (inv : SearchInv k l st) :
    SearchInv k (l ++ [p]) (process_node p rect k st) := by
  have htot : wrap32 (st.total_inside + 1) = (l.length : Int) + 1 := by
    rw [inv.total]
    exact wrap32_of_range _ (by omega) hlen
  have hlen1 : (l ++ [p]).length = l.length + 1 := by simp
  -- writing the next match into the next free slot
  have hfillseg : (l.length : Int) < k →
      seg (Function.update st.out_points st.worst_idx p) 0 (l.length + 1) = l ++ [p] := by
    intro hlt
    have hw := inv.filling hlt
    rw [seg_snoc, hw, seg_update_outside _ _ _ _ _ (Or.inr (by omega)),
      inv.prefix_eq (by omega), zero_add, Function.update_same]
  by_cases h1 : wrap32 (st.total_inside + 1) < k
  · rw [process_node_fill p rect k st hin h1]
    rw [htot] at h1
    refine ⟨?_, ?_, ?_, ?_⟩
    · simp only [htot, hlen1]; push_cast; ring
    · intro _
      simp only [hlen1]
      rw [inv.filling (by omega)]
      push_cast; ring
    · intro _
      simp only [hlen1]
      exact hfillseg (by omega)
    · intro _ hkl
      rw [hlen1] at hkl
      push_cast at hkl
      omega
  · by_cases h2 : wrap32 (st.total_inside + 1) = k ∨ p.rank < st.worst_rank
    · rw [process_node_replace p rect k st hin h1 h2]
      rw [htot] at h1 h2
      by_cases hk : (l.length : Int) + 1 = k
      · have hkn : k.toNat = l.length + 1 := by omega
        have hseg := hfillseg (by omega)
        refine ⟨?_, ?_, ?_, ?_⟩
        · simp only [htot, hlen1]; push_cast; ring
        · intro hlt
          rw [hlen1] at hlt
          push_cast at hlt
          omega
        · intro _
          simp only [hlen1]
          exact hseg
        · intro hk1 _ hr
          simp only [hkn, hseg]
          have hr2 : ∀ j, 0 ≤ j → j < k →
              INT32_MIN ≤ (Function.update st.out_points st.worst_idx p j).rank := by
            intro j hj1 hj2
            apply hr
            rw [← hseg]
            exact (mem_seg _ _ _ _).mpr ⟨j, hj1, by push_cast; omega, rfl⟩
          obtain ⟨w0, w1, w2, w3, w4⟩ := find_worst_rank_spec _ k hk1 hr2
          exact ⟨⟨[], by simp, by simp⟩, w0, w1, w2, w3, w4⟩
      · have hrank : p.rank < st.worst_rank := by
          rcases h2 with h2 | h2
          · exact absurd h2 hk
          · exact h2
        refine ⟨?_, ?_, ?_, ?_⟩
        · simp only [htot, hlen1]; push_cast; ring
        · intro hlt
          rw [hlen1] at hlt
          push_cast at hlt
          omega
        · intro hle
          rw [hlen1] at hle
          push_cast at hle
          omega
        · intro hk1 _ hr
          have hrl : ∀ q ∈ l, INT32_MIN ≤ q.rank := fun q hq =>
            hr q (List.mem_append_left _ hq)
          obtain ⟨⟨rest, hperm, hrest⟩, v0, v1, v2, v3, _⟩ := inv.top hk1 (by omega) hrl
          have hkk : (0 : Int) + (k.toNat : Int) = k := by omega
          have hupd := seg_update_perm st.out_points st.worst_idx p 0 k.toNat (by omega)
            (by omega)
          have hwmem : st.out_points st.worst_idx ∈ seg st.out_points 0 k.toNat :=
            (mem_seg _ _ _ _).mpr ⟨st.worst_idx, v0, by omega, rfl⟩
          have hBle : ∀ q ∈ seg st.out_points 0 k.toNat, q.rank ≤ st.worst_rank := by
            intro q hq
            obtain ⟨j, hj1, hj2, hj3⟩ := (mem_seg _ _ _ _).mp hq
            rw [← hj3]
            exact v3 j hj1 (by omega)
          have hr2 : ∀ j, 0 ≤ j → j < k →
              INT32_MIN ≤ (Function.update st.out_points st.worst_idx p j).rank := by
            intro j hj1 hj2
            have hm : Function.update st.out_points st.worst_idx p j ∈
                seg (Function.update st.out_points st.worst_idx p) 0 k.toNat :=
              (mem_seg _ _ _ _).mpr ⟨j, hj1, by omega, rfl⟩
            rcases mem_seg_update _ _ _ _ _ _ hm with h | h
            · rw [h]; exact hr p (by simp)
            · exact hrl _ ((List.Perm.mem_iff hperm).mpr (List.mem_append_left _ h))
          obtain ⟨w0, w1, w2, w3, w4⟩ := find_worst_rank_spec _ k hk1 hr2
          refine ⟨⟨st.out_points st.worst_idx :: rest, ?_, ?_⟩, w0, w1, w2, w3, w4⟩
          · have e1 : (l ++ [p]).Perm (p :: (seg st.out_points 0 k.toNat ++ rest)) :=
              (List.perm_append_singleton p l).trans (List.Perm.cons p hperm)
            have e2 : (p :: (seg st.out_points 0 k.toNat ++ rest)).Perm
                (st.out_points st.worst_idx ::
                  (seg (Function.update st.out_points st.worst_idx p) 0 k.toNat ++ rest)) :=
              List.Perm.append_right rest hupd
            exact e1.trans (e2.trans List.perm_middle.symm)
          · intro r hr1 q hq
            have hq2 := mem_seg_update _ _ _ _ _ _ hq
            rcases List.mem_cons.mp hr1 with hr1 | hr1
            · rw [hr1, v2]
              rcases hq2 with h | h
              · rw [h]; omega
              · exact hBle q h
            · rcases hq2 with h | h
              · have := hrest r hr1 _ hwmem
                rw [h]; omega
              · exact hrest r hr1 q h
    · rw [process_node_skip p rect k st hin h1 h2]
      rw [htot] at h1 h2
      have hne : ¬ ((l.length : Int) + 1 = k) := fun h => h2 (Or.inl h)
      have hrank : st.worst_rank ≤ p.rank := by
        have : ¬ p.rank < st.worst_rank := fun h => h2 (Or.inr h)
        omega
      refine ⟨?_, ?_, ?_, ?_⟩
      · simp only [htot, hlen1]; push_cast; ring
      · intro hlt
        rw [hlen1] at hlt
        push_cast at hlt
        omega
      · intro hle
        rw [hlen1] at hle
        push_cast at hle
        omega
      · intro hk1 _ hr
        have hrl : ∀ q ∈ l, INT32_MIN ≤ q.rank := fun q hq =>
          hr q (List.mem_append_left _ hq)
        obtain ⟨⟨rest, hperm, hrest⟩, v0, v1, v2, v3, v4⟩ := inv.top hk1 (by omega) hrl
        refine ⟨⟨rest ++ [p], ?_, ?_⟩, v0, v1, v2, v3, v4⟩
        · rw [← List.append_assoc]
          exact List.Perm.append_right [p] hperm
        · intro r hr1 q hq
          rcases List.mem_append.mp hr1 with hr1 | hr1
          · exact hrest r hr1 q hq
          · have hrp : r = p := by simpa using hr1
            have hq2 : q ∈ seg st.out_points 0 k.toNat := hq
            obtain ⟨j, hj1, hj2, hj3⟩ := (mem_seg _ _ _ _).mp hq2
            have := v3 j hj1 (by omega)
            rw [hrp, ← hj3]
            omega

theorem process_all_snoc (rect : Rect) (k : Int) (l : List Point) (p : Point)
    (st : SearchState) :
    process_all rect k (l ++ [p]) st = process_node p rect k (process_all rect k l st) := by
  simp [process_all, List.foldl_append]

/-- The bookkeeping holds after any sequence of matches whose number is an `int32_t` value. -/
theorem process_all_inv (rect : Rect) (k : Int) (out : Int → Point) (l : List Point)
    (hall : ∀ p ∈ l, inside_rect rect p = true) (hfit : (l.length : Int) ≤ INT32_MAX) :
    SearchInv k l (process_all rect k l (initial_state out)) := by
  induction l using List.reverseRecOn with
  | nil =>
    refine ⟨rfl, fun _ => rfl, fun _ => rfl, ?_⟩
    intro h1 h2
    simp at h2
    omega
  | append_singleton l p ih =>
    rw [process_all_snoc]
    unfold INT32_MAX at hfit
    simp only [List.length_append, List.length_singleton] at hfit
    push_cast at hfit
    refine process_node_inv rect k l p _ (hall p (by simp)) (by omega) (ih ?_ ?_)
    · intro q hq
      exact hall q (List.mem_append_left _ hq)
    · unfold INT32_MAX
      omega

theorem matching_inside (rect : Rect) (l : List Point) :
    ∀ p ∈ matching rect l, inside_rect rect p = true := by
  intro p hp
  exact (List.mem_filter.mp hp).2

/-- The search on a tree with the kd split invariant: the returned count is
`min total_inside max_count`, and the final state is the one the bookkeeping describes for
the matches of the tree in depth-first order. -/
theorem find_best_points_spec (t : KdTree) (rect : Rect) (k : Int) (out : Int → Point)
    (hkd : kd_inv true t.root_)
    (hfit : ((matching rect t.root_.points).length : Int) ≤ INT32_MAX) :
    ∃ st : SearchState,
      t.find_best_points rect k (some out) = (min st.total_inside k, some st.out_points) ∧
      SearchInv k (matching rect t.root_.points) st := by
  refine ⟨process_all rect k (matching rect t.root_.points) (initial_state out), ?_,
    process_all_inv rect k out _ (matching_inside rect _) hfit⟩
  simp only [KdTree.find_best_points]
  have h := find_best_points_rec_eq rect k t.root_ true (initial_state out)
  rw [process_all_matching, visited_matching rect t.root_ true hkd] at h
  unfold initial_state at h
  rw [h]
  rfl

theorem matching_perm (rect : Rect) (l1 l2 : List Point) (h : l1.Perm l2) :
    (matching rect l1).Perm (matching rect l2) :=
  List.Perm.filter _ h

/-! ## The search on the tree that `build_tree` produces -/

/-- Claim C1.  For every non-empty point array, every rectangle and every `k` (the number of
matches being an `int32_t` value, as the counter `total_inside` is), `find_best_points` on
the tree produced by `build_tree` returns exactly `min k m`, with `m` the number of input
points inside the rectangle, all four bounds inclusive. -/
theorem find_best_points_count (t0 : KdTree) (S : StdSort) (pts : List Point) (rect : Rect)
    (k : Int) (out : Int → Point) (hne : pts ≠ [])
    (hfit : ((matching rect pts).length : Int) ≤ INT32_MAX) :
    ∃ (root : Node) (tree : KdTree), t0.build_tree S true true pts = some (root, tree) ∧
      (tree.find_best_points rect k (some out)).1 =
        min k ((pts.filter (fun p => decide (rect.lx ≤ p.x ∧ p.x ≤ rect.hx ∧
          rect.ly ≤ p.y ∧ p.y ≤ rect.hy))).length : Int) := by
  obtain ⟨root, hb, hperm, hkd⟩ := build_tree_spec t0 S pts hne
  have hm := matching_perm rect _ _ hperm
  have hfit2 : ((matching rect (KdTree.mk root).root_.points).length : Int) ≤ INT32_MAX := by
    rw [hm.length_eq]; exact hfit
  obtain ⟨st, hs, inv⟩ := find_best_points_spec ⟨root⟩ rect k out hkd hfit2
  refine ⟨root, ⟨root⟩, hb, ?_⟩
  rw [hs]
  have hfilter : pts.filter (fun p => decide (rect.lx ≤ p.x ∧ p.x ≤ rect.hx ∧
      rect.ly ≤ p.y ∧ p.y ≤ rect.hy)) = matching rect pts := by
    unfold matching
    apply List.filter_congr
    intro p _
    rw [Bool.eq_iff_iff, inside_rect_iff]
    simp
  rw [hfilter]
  show min st.total_inside k = _
  rw [inv.total, hm.length_eq, min_comm]

theorem find_best_points_count_witness :
    fixture7 ≠ [] ∧ ((matching rect_all fixture7).length : Int) ≤ INT32_MAX ∧
    ∃ (root : Node) (tree : KdTree),
      KdTree.new.build_tree insertion_sort true true fixture7 = some (root, tree) ∧
      (tree.find_best_points rect_all 3 (some blank_buffer)).1 =
        min 3 ((fixture7.filter (fun p => decide (rect_all.lx ≤ p.x ∧ p.x ≤ rect_all.hx ∧
          rect_all.ly ≤ p.y ∧ p.y ≤ rect_all.hy))).length : Int) :=
  ⟨by decide, by decide,
    find_best_points_count KdTree.new insertion_sort fixture7 rect_all 3 blank_buffer
      (by decide) (by decide)⟩

/-- Claim C2.  For every tree built by `build_tree`, every rectangle and every `k ≥ 1` such
that more than `k` input points lie inside the rectangle (ranks and the number of matches
being `int32_t` values), the first `k` buffer entries after `find_best_points` are `k`
distinct matching input points, and every matching point not in the buffer has a rank
greater than or equal to the rank of every point in the buffer. -/
theorem find_best_points_lowest_ranks (t0 : KdTree) (S : StdSort) (pts : List Point)
    (rect : Rect) (k : Int) (out : Int → Point) (hk : 1 ≤ k)
    (hm : k < ((matching rect pts).length : Int))
    (hfit : ((matching rect pts).length : Int) ≤ INT32_MAX)
    (hrank : ∀ p ∈ pts, INT32_MIN ≤ p.rank) :
    ∃ (root : Node) (tree : KdTree) (buf : Int → Point),
      t0.build_tree S true true pts = some (root, tree) ∧
      (tree.find_best_points rect k (some out)).2 = some buf ∧
      (seg buf 0 k.toNat).length = k.toNat ∧
      ∃ rest : List Point, (matching rect pts).Perm (seg buf 0 k.toNat ++ rest) ∧
        ∀ p ∈ rest, ∀ q ∈ seg buf 0 k.toNat, q.rank ≤ p.rank := by
  have hne : pts ≠ [] := by
    intro h
    rw [h] at hm
    simp [matching] at hm
    omega
  obtain ⟨root, hb, hperm, hkd⟩ := build_tree_spec t0 S pts hne
  have hmp := matching_perm rect _ _ hperm
  have hfit2 : ((matching rect (KdTree.mk root).root_.points).length : Int) ≤ INT32_MAX := by
    rw [hmp.length_eq]; exact hfit
  obtain ⟨st, hs, inv⟩ := find_best_points_spec ⟨root⟩ rect k out hkd hfit2
  have hr : ∀ q ∈ matching rect (KdTree.mk root).root_.points, INT32_MIN ≤ q.rank := by
    intro q hq
    exact hrank q (List.mem_of_mem_filter ((List.Perm.mem_iff hmp).mp hq))
  obtain ⟨⟨rest, h1, h2⟩, _⟩ := inv.top hk (by rw [hmp.length_eq]; omega) hr
  refine ⟨root, ⟨root⟩, st.out_points, hb, by rw [hs], seg_length _ _ _, rest, ?_, h2⟩
  exact hmp.symm.trans h1

theorem find_best_points_lowest_ranks_witness :
    (1 : Int) ≤ 3 ∧ (3 : Int) < ((matching rect_all fixture7).length : Int) ∧
    ((matching rect_all fixture7).length : Int) ≤ INT32_MAX ∧
    (∀ p ∈ fixture7, INT32_MIN ≤ p.rank) ∧
    ∃ (root : Node) (tree : KdTree) (buf : Int → Point),
      KdTree.new.build_tree insertion_sort true true fixture7 = some (root, tree) ∧
      (tree.find_best_points rect_all 3 (some blank_buffer)).2 = some buf ∧
      (seg buf 0 (3 : Int).toNat).length = (3 : Int).toNat ∧
      ∃ rest : List Point,
        (matching rect_all fixture7).Perm (seg buf 0 (3 : Int).toNat ++ rest) ∧
        ∀ p ∈ rest, ∀ q ∈ seg buf 0 (3 : Int).toNat, q.rank ≤ p.rank :=
  ⟨by decide, by decide, by decide, by decide,
    find_best_points_lowest_ranks KdTree.new insertion_sort fixture7 rect_all 3 blank_buffer
      (by decide) (by decide) (by decide) (by decide)⟩

/-- Claim C3.  For every tree built by `build_tree`, every rectangle and every `k` (an
`int32_t` value) such that the number `m` of input points inside the rectangle is at most
`k`, the first `m` buffer entries after `find_best_points` are the matching points of the
tree in depth-first order (node, left child, right child), which are the matching input
points, each once. -/
theorem find_best_points_all_matches (t0 : KdTree) (S : StdSort) (pts : List Point)
    (rect : Rect) (k : Int) (out : Int → Point) (hne : pts ≠ [])
    (hm : ((matching rect pts).length : Int) ≤ k) (hk32 : k ≤ INT32_MAX) :
    ∃ (root : Node) (tree : KdTree) (buf : Int → Point),
      t0.build_tree S true true pts = some (root, tree) ∧
      (tree.find_best_points rect k (some out)).2 = some buf ∧
      seg buf 0 (matching rect pts).length = matching rect root.points ∧
      (matching rect root.points).Perm (matching rect pts) := by
  obtain ⟨root, hb, hperm, hkd⟩ := build_tree_spec t0 S pts hne
  have hmp := matching_perm rect _ _ hperm
  have hfit2 : ((matching rect (KdTree.mk root).root_.points).length : Int) ≤ INT32_MAX := by
    rw [hmp.length_eq]; omega
  obtain ⟨st, hs, inv⟩ := find_best_points_spec ⟨root⟩ rect k out hkd hfit2
  refine ⟨root, ⟨root⟩, st.out_points, hb, by rw [hs], ?_, hmp⟩
  have := inv.prefix_eq (by rw [hmp.length_eq]; exact hm)
  rw [hmp.length_eq] at this
  exact this

theorem find_best_points_all_matches_witness :
    fixture7 ≠ [] ∧ ((matching rect_all fixture7).length : Int) ≤ 9 ∧ (9 : Int) ≤ INT32_MAX ∧
    ∃ (root : Node) (tree : KdTree) (buf : Int → Point),
      KdTree.new.build_tree insertion_sort true true fixture7 = some (root, tree) ∧
      (tree.find_best_points rect_all 9 (some blank_buffer)).2 = some buf ∧
      seg buf 0 (matching rect_all fixture7).length = matching rect_all root.points ∧
      (matching rect_all root.points).Perm (matching rect_all fixture7) :=
  ⟨by decide, by decide, by decide,
    find_best_points_all_matches KdTree.new insertion_sort fixture7 rect_all 9 blank_buffer
      (by decide) (by decide) (by decide)⟩

/-! ## Ties between equal ranks -/

theorem kd_inv_iff_at (d : Nat) (t : Node) :
    kd_inv (decide (d % 2 = 0)) t ↔ kd_invariant_at d t := by
  induction t generalizing d with
  | null => simp [kd_inv, kd_invariant_at]
  | mk p l r ihl ihr =>
    have hd : (!decide (d % 2 = 0)) = decide ((d + 1) % 2 = 0) := by
      rcases Nat.mod_two_eq_zero_or_one d with h | h
      · have h2 : (d + 1) % 2 = 1 := by omega
        simp [h, h2]
      · have h2 : (d + 1) % 2 = 0 := by omega
        simp [h, h2]
    simp only [kd_inv, kd_invariant_at]
    rw [hd, ihl (d + 1), ihr (d + 1)]

/-- Claim C5.  For every non-empty point array, duplicate coordinate values included, the
tree produced by `build_tree` satisfies the kd split invariant at every node: at depth `d`,
with split dimension `x` for even `d` and `y` for odd `d`, every point of the left subtree
has a strictly smaller split coordinate than the node, every point of the right subtree a
split coordinate greater than or equal to the node's. -/
theorem build_tree_kd_invariant (t0 : KdTree) (S : StdSort) (pts : List Point)
    (hne : pts ≠ []) :
    ∃ (root : Node) (tree : KdTree), t0.build_tree S true true pts = some (root, tree) ∧
      tree.root_ = root ∧ kd_invariant_at 0 root := by
  obtain ⟨root, hb, _, hkd⟩ := build_tree_spec t0 S pts hne
  exact ⟨root, ⟨root⟩, hb, rfl, (kd_inv_iff_at 0 root).mp hkd⟩

theorem build_tree_kd_invariant_witness :
    dup_points ≠ [] ∧
    ∃ (root : Node) (tree : KdTree),
      KdTree.new.build_tree insertion_sort true true dup_points = some (root, tree) ∧
      tree.root_ = root ∧ kd_invariant_at 0 root :=
  ⟨by decide, build_tree_kd_invariant KdTree.new insertion_sort dup_points (by decide)⟩

/-- Claim C6.  For every point array of `N ≥ 1` points, the multiset of the points stored in
the nodes of the tree produced by `build_tree` is the multiset of the input points, and the
size of the tree is `N`. -/
theorem build_tree_points (t0 : KdTree) (S : StdSort) (pts : List Point) (hne : pts ≠ []) :
    ∃ (root : Node) (tree : KdTree), t0.build_tree S true true pts = some (root, tree) ∧
      (tree.root_.points : Multiset Point) = (pts : Multiset Point) ∧
      tree.size = pts.length := by
  obtain ⟨root, hb, hperm, _⟩ := build_tree_spec t0 S pts hne
  refine ⟨root, ⟨root⟩, hb, Multiset.coe_eq_coe.mpr hperm, ?_⟩
  show size root = pts.length
  rw [size_eq_length_points, hperm.length_eq]

theorem build_tree_points_witness :
    dup_points ≠ [] ∧
    ∃ (root : Node) (tree : KdTree),
      KdTree.new.build_tree insertion_sort true true dup_points = some (root, tree) ∧
      (tree.root_.points : Multiset Point) = (dup_points : Multiset Point) ∧
      tree.size = dup_points.length :=
  ⟨by decide, build_tree_points KdTree.new insertion_sort dup_points (by decide)⟩

/-- A list sorted by a key is determined by its entries when their keys are distinct. -/
theorem sorted_perm_unique (key : Int → Int) (l1 l2 : List Int) (hp : l1.Perm l2)
    (h1 : l1.Pairwise (fun i j => key i ≤ key j))
    (h2 : l2.Pairwise (fun i j => key i < key j)) : l1 = l2 := by
  have hnd2 : (l2.map key).Nodup :=
    List.pairwise_map.mpr (h2.imp (fun h => ne_of_lt h))
  have hnd1 : (l1.map key).Nodup := (List.Perm.nodup_iff (List.Perm.map _ hp)).mpr hnd2
  have h3 : l1.Pairwise (fun i j => key i ≠ key j) := List.pairwise_map.mp hnd1
  have h4 : l1.Pairwise (fun i j => key i < key j) :=
    (h1.and h3).imp (fun hab => lt_of_le_of_ne hab.1 hab.2)
  haveI : IsAntisymm Int (fun i j => key i < key j) :=
    ⟨fun a b ha hb => absurd ha (not_lt.mpr (le_of_lt hb))⟩
  exact List.eq_of_perm_of_sorted hp h4 h2

/-- Claim C7.  Building the 7-point fixture (`id = rank = i`, `x = i`, `y = -i`) yields,
whatever sorted permutations `std::sort` returns, exactly the tree with root id 3, children
ids 1 and 5, and the leaves 2, 0, 6, 4 below them. -/
theorem build_tree_fixture7 (t0 : KdTree) (S : StdSort) :
    t0.build_tree S true true fixture7 = some (fixture7_tree, ⟨fixture7_tree⟩) := by
  have hx : S.sort (fun i => (point_array fixture7 i).x) (iota fixture7.length) =
      [0, 1, 2, 3, 4, 5, 6] :=
    sorted_perm_unique _ _ _ ((S.perm _ _).trans (by decide)) (S.sorted _ _) (by decide)
  have hy : S.sort (fun i => (point_array fixture7 i).y) (iota fixture7.length) =
      [6, 5, 4, 3, 2, 1, 0] :=
    sorted_perm_unique _ _ _ ((S.perm _ _).trans (by decide)) (S.sorted _ _) (by decide)
  simp only [KdTree.build_tree, Bool.not_true, Bool.or_self, Bool.false_eq_true, if_false]
  rw [hx, hy]
  rfl

/-! ## Arguments of `find_best_points` -/

/-- Claim C8, at a failing input.  With `k = 0`, on the tree of one point of rank `-1` at the
origin and the rectangle that holds the origin, `find_best_points` returns 0 and yet writes
the point into entry 0 of the destination: the test `p.rank < worst_rank` is taken against
the initial `worst_rank = 0`.  The tree is the one `build_tree` produces from the point. -/
theorem find_best_points_zero_writes :
    KdTree.new.build_tree insertion_sort true true [⟨7, -1, 0, 0⟩] =
      some (negative_rank_tree.root_, negative_rank_tree) ∧
    (negative_rank_tree.find_best_points rect_origin 0 (some blank_buffer)).1 = 0 ∧
    (negative_rank_tree.find_best_points rect_origin 0 (some blank_buffer)).2.map
      (fun buf => buf 0) = some ⟨7, -1, 0, 0⟩ ∧
    blank_buffer 0 ≠ ⟨7, -1, 0, 0⟩ := by
  refine ⟨by decide, by decide, by decide, by decide⟩

theorem visited_sublist (rect : Rect) (t : Node) (sx : Bool) :
    (visited rect t sx).Sublist t.points := by
  induction t generalizing sx with
  | null => exact List.Sublist.refl _
  | mk p l r ihl ihr =>
    simp only [visited, Node.points]
    refine List.Sublist.cons₂ p (List.Sublist.append ?_ ?_)
    · by_cases hc : (if sx = true then rect.lx < p.x else rect.ly < p.y)
      · rw [if_pos hc]; exact ihl _
      · rw [if_neg hc]; exact List.nil_sublist _
    · by_cases hc : (if sx = true then rect.hx ≥ p.x else rect.hy ≥ p.y)
      · rw [if_pos hc]; exact ihr _
      · rw [if_neg hc]; exact List.nil_sublist _

/-- On any tree with at most `INT32_MAX` nodes the counter ends as the number of matches
among the visited nodes, and the returned count is `min total_inside max_count`. -/
theorem find_best_points_total (t : KdTree) (rect : Rect) (k : Int) (out : Int → Point)
    (hsz : (t.size : Int) ≤ INT32_MAX) :
    ∃ st : SearchState,
      t.find_best_points rect k (some out) = (min st.total_inside k, some st.out_points) ∧
      st.total_inside = (matching rect (visited rect t.root_ true)).length := by
  have hlen : ((matching rect (visited rect t.root_ true)).length : Int) ≤ INT32_MAX := by
    have h1 : (matching rect (visited rect t.root_ true)).length ≤
        (visited rect t.root_ true).length := List.length_filter_le _ _
    have h2 := (visited_sublist rect t.root_ true).length_le
    have h3 : t.size = t.root_.points.length := size_eq_length_points _
    omega
  have inv := process_all_inv rect k out _ (matching_inside rect (visited rect t.root_ true))
    hlen
  refine ⟨_, ?_, inv.total⟩
  simp only [KdTree.find_best_points]
  have h := find_best_points_rec_eq rect k t.root_ true (initial_state out)
  rw [process_all_matching] at h
  unfold initial_state at h
  rw [h]
  rfl

/-- Claim C9.  `find_best_points` returns a negative value if and only if the destination
buffer is absent or `max_count < 0` (on a tree of at most `INT32_MAX` nodes, the range of
the counter `total_inside`); so the result of every valid call is `≥ 0`. -/
theorem find_best_points_negative_iff (t : KdTree) (rect : Rect) (k : Int)
    (out : Option (Int → Point)) (hsz : (t.size : Int) ≤ INT32_MAX) :
    (t.find_best_points rect k out).1 < 0 ↔ (out = none ∨ k < 0) := by
  cases out with
  | none => simp [KdTree.find_best_points]
  | some buf =>
    obtain ⟨st, hs, htot⟩ := find_best_points_total t rect k buf hsz
    rw [hs]
    simp only [reduceCtorEq, false_or]
    show min st.total_inside k < 0 ↔ k < 0
    rw [htot]
    omega

theorem find_best_points_negative_iff_witness :
    ((KdTree.mk fixture7_tree).size : Int) ≤ INT32_MAX ∧
    (((KdTree.mk fixture7_tree).find_best_points rect_all (-2) (some blank_buffer)).1 < 0 ↔
      (some blank_buffer = none ∨ (-2 : Int) < 0)) :=
  ⟨by decide,
    find_best_points_negative_iff ⟨fixture7_tree⟩ rect_all (-2) (some blank_buffer)
      (by decide)⟩

/-! ## Results of `build_tree` -/

/-- Claim C10.  On a fresh tree object `build_tree` ends and `root_` is the returned pointer;
when the input sequence is empty or a begin/end pointer is absent the root is null and the
size is 0; for every non-empty input the root is not null and the tree is complete: it holds
every input point, its size is the number of input points. -/
theorem build_tree_result (S : StdSort) (begin_ok end_ok : Bool) (pts : List Point) :
    ∃ root : Node,
      KdTree.new.build_tree S begin_ok end_ok pts = some (root, ⟨root⟩) ∧
      ((pts = [] ∨ begin_ok = false ∨ end_ok = false) →
        root = Node.null ∧ (KdTree.mk root).size = 0) ∧
      ((pts ≠ [] ∧ begin_ok = true ∧ end_ok = true) →
        root ≠ Node.null ∧ root.points.Perm pts ∧ (KdTree.mk root).size = pts.length) := by
  by_cases h : pts ≠ [] ∧ begin_ok = true ∧ end_ok = true
  · obtain ⟨h1, h2, h3⟩ := h
    subst h2 h3
    obtain ⟨root, hb, hperm, _⟩ := build_tree_spec KdTree.new S pts h1
    refine ⟨root, hb, ?_, ?_⟩
    · rintro (h | h | h)
      · exact absurd h h1
      · exact absurd h (by decide)
      · exact absurd h (by decide)
    · intro _
      have hsz : size root = pts.length := by rw [size_eq_length_points, hperm.length_eq]
      refine ⟨?_, hperm, hsz⟩
      intro hroot
      rw [hroot] at hsz
      have : pts.length = 0 := by simpa [size] using hsz.symm
      exact h1 (List.length_eq_zero.mp this)
  · refine ⟨Node.null, ?_, fun _ => ⟨rfl, rfl⟩, fun h2 => absurd h2 h⟩
    by_cases hb : begin_ok = true ∧ end_ok = true
    · have hp : pts = [] := by
        by_contra hne
        exact h ⟨hne, hb.1, hb.2⟩
      subst hp
      simp [KdTree.build_tree, KdTree.new]
    · have : (!begin_ok || !end_ok) = true := by
        cases begin_ok <;> cases end_ok <;> simp at hb ⊢
      simp [KdTree.build_tree, KdTree.new, this]

/-! ## The boundary operation `search` -/

theorem find_best_points_some (t : KdTree) (rect : Rect) (k : Int) (out : Int → Point) :
    ∃ buf, (t.find_best_points rect k (some out)).2 = some buf :=
  ⟨_, rfl⟩

theorem seg_write_range (l : List Point) (buf : Int → Point) :
    seg (write_range l buf) 0 l.length = l := by
  apply seg_of_getD default
  intro i hi
  have h : (0 : Int) ≤ 0 + (i : Int) ∧ (0 : Int) + (i : Int) < (l.length : Int) := by omega
  simp only [write_range, if_pos h]
  congr 1
  omega

theorem search_some (RS : StdSortPoints) (ctx : SearchContext) (rect : Rect) (count : Int)
    (out : Int → Point) :
    search RS (some ctx) rect count (some out) =
      if (ctx.copy_best_points rect count (some out)).1 ≤ 0 then
        (0, (ctx.copy_best_points rect count (some out)).2)
      else
        ((ctx.copy_best_points rect count (some out)).1,
          (ctx.copy_best_points rect count (some out)).2.map (fun buf =>
            write_range (RS.sort (seg buf 0 (ctx.copy_best_points rect count (some out)).1.toNat))
              buf)) := rfl

/-- When the bounded search returns a positive count, `search` returns that count and the
sorted first entries, written back over the first entries of the bounded search's buffer. -/
theorem search_positive (RS : StdSortPoints) (ctx : SearchContext) (rect : Rect) (count : Int)
    (out : Int → Point) (h : 0 < (ctx.copy_best_points rect count (some out)).1) :
    ∃ buf0, (ctx.copy_best_points rect count (some out)).2 = some buf0 ∧
      search RS (some ctx) rect count (some out) =
        ((ctx.copy_best_points rect count (some out)).1,
          some (write_range
            (RS.sort (seg buf0 0 (ctx.copy_best_points rect count (some out)).1.toNat)) buf0)) ∧
      seg (write_range
            (RS.sort (seg buf0 0 (ctx.copy_best_points rect count (some out)).1.toNat)) buf0) 0
          (ctx.copy_best_points rect count (some out)).1.toNat =
        RS.sort (seg buf0 0 (ctx.copy_best_points rect count (some out)).1.toNat) := by
  obtain ⟨buf0, hb⟩ := find_best_points_some ctx.points rect count out
  have hb2 : (ctx.copy_best_points rect count (some out)).2 = some buf0 := hb
  refine ⟨buf0, hb2, ?_, ?_⟩
  · rw [search_some, if_neg (by omega), hb2]
    rfl
  · have hl : (RS.sort (seg buf0 0 (ctx.copy_best_points rect count (some out)).1.toNat)).length =
        (ctx.copy_best_points rect count (some out)).1.toNat := by
      rw [(RS.perm _).length_eq, seg_length]
    have := seg_write_range
      (RS.sort (seg buf0 0 (ctx.copy_best_points rect count (some out)).1.toNat)) buf0
    rw [hl] at this
    exact this

/-- A list of points sorted by rank is determined by its entries when their ranks are
distinct. -/
theorem rank_sorted_unique (l1 l2 : List Point) (hp : l1.Perm l2)
    (h1 : l1.Pairwise (fun a b => a.rank ≤ b.rank))
    (h2 : l2.Pairwise (fun a b => a.rank < b.rank)) : l1 = l2 := by
  have hnd2 : (l2.map Point.rank).Nodup :=
    List.pairwise_map.mpr (h2.imp (fun h => ne_of_lt h))
  have hnd1 : (l1.map Point.rank).Nodup :=
    (List.Perm.nodup_iff (List.Perm.map _ hp)).mpr hnd2
  have h3 : l1.Pairwise (fun a b => a.rank ≠ b.rank) := List.pairwise_map.mp hnd1
  have h4 : l1.Pairwise (fun a b => a.rank < b.rank) :=
    (h1.and h3).imp (fun hab => lt_of_le_of_ne hab.1 hab.2)
  haveI : IsAntisymm Point (fun a b => a.rank < b.rank) :=
    ⟨fun a b ha hb => absurd ha (not_lt.mpr (le_of_lt hb))⟩
  exact List.eq_of_perm_of_sorted hp h4 h2

/-- The two orderings of the 7-point fixture are the same for every sorting routine, and so
is the tree. -/
theorem fixture7_build (t0 : KdTree) (S : StdSort) :
    t0.build_tree S true true fixture7 = some (fixture7_tree, ⟨fixture7_tree⟩) := by
  have hx : S.sort (fun i => (point_array fixture7 i).x) (iota fixture7.length) =
      [0, 1, 2, 3, 4, 5, 6] :=
    sorted_perm_unique _ _ _ ((S.perm _ _).trans (by decide)) (S.sorted _ _) (by decide)
  have hy : S.sort (fun i => (point_array fixture7 i).y) (iota fixture7.length) =
      [6, 5, 4, 3, 2, 1, 0] :=
    sorted_perm_unique _ _ _ ((S.perm _ _).trans (by decide)) (S.sorted _ _) (by decide)
  simp only [KdTree.build_tree, Bool.not_true, Bool.or_self, Bool.false_eq_true, if_false]
  rw [hx, hy]
  rfl

/-- Claim C11.  For every context, rectangle, count and present destination buffer, when
`search` returns `n > 0` the context is present, the bounded search `copy_best_points`
returned `n`, and the first `n` destination entries are sorted ascending by rank and are a
permutation of the `n` entries the bounded search left there.  On the 7-point fixture with a
rectangle covering all points and count 3, `search` returns 3 and the points with ids
`[0, 1, 2]`, in that order. -/
theorem search_sorted (RS : StdSortPoints) :
    (∀ (sc : Option SearchContext) (rect : Rect) (count : Int) (out : Int → Point),
      0 < (search RS sc rect count (some out)).1 →
      ∃ (ctx : SearchContext) (buf0 buf : Int → Point), sc = some ctx ∧
        ctx.copy_best_points rect count (some out) =
          ((search RS sc rect count (some out)).1, some buf0) ∧
        (search RS sc rect count (some out)).2 = some buf ∧
        (seg buf 0 (search RS sc rect count (some out)).1.toNat).Pairwise
          (fun a b => a.rank ≤ b.rank) ∧
        (seg buf 0 (search RS sc rect count (some out)).1.toNat).Perm
          (seg buf0 0 (search RS sc rect count (some out)).1.toNat)) ∧
    (∀ S : StdSort, ∃ ctx : SearchContext, create S true true fixture7 = some (some ctx) ∧
      (search RS (some ctx) rect_all 3 (some blank_buffer)).1 = 3 ∧
      (search RS (some ctx) rect_all 3 (some blank_buffer)).2.map
        (fun buf => (seg buf 0 3).map Point.id) = some [0, 1, 2]) := by
  constructor
  · intro sc rect count out hpos
    cases sc with
    | none => exact absurd hpos (by simp [search])
    | some ctx =>
      by_cases hle : (ctx.copy_best_points rect count (some out)).1 ≤ 0
      · rw [search_some, if_pos hle] at hpos
        exact absurd hpos (by simp)
      · obtain ⟨buf0, hb, hs, hseg⟩ := search_positive RS ctx rect count out (by omega)
        refine ⟨ctx, buf0, _, rfl, ?_, by rw [hs], ?_, ?_⟩
        · rw [hs]
          exact Prod.ext rfl hb
        · rw [hs]
          simp only
          rw [hseg]
          exact RS.sorted _
        · rw [hs]
          simp only
          rw [hseg]
          exact RS.perm _
  · intro S
    refine ⟨⟨⟨fixture7_tree⟩⟩, ?_, ?_⟩
    · simp only [create, SearchContext.new, Bool.not_true, Bool.or_self, Bool.false_eq_true,
        if_false, fixture7_build]
    · have h3 : ((SearchContext.mk ⟨fixture7_tree⟩).copy_best_points rect_all 3
          (some blank_buffer)).1 = 3 := by decide
      obtain ⟨buf0, hb, hs, hseg⟩ := search_positive RS ⟨⟨fixture7_tree⟩⟩ rect_all 3
        blank_buffer (by rw [h3]; decide)
      have hbuf : ((SearchContext.mk ⟨fixture7_tree⟩).copy_best_points rect_all 3
          (some blank_buffer)).2.map (fun b => seg b 0 3) =
          some [⟨0, 0, 0, 0⟩, ⟨1, 1, 1, -1⟩, ⟨2, 2, 2, -2⟩] := by decide
      rw [hb, Option.map_some'] at hbuf
      have hbuf2 := Option.some.inj hbuf
      rw [h3] at hs hseg
      have hn : (3 : Int).toNat = 3 := rfl
      rw [hn] at hs hseg
      have hsort : RS.sort (seg buf0 0 3) = [⟨0, 0, 0, 0⟩, ⟨1, 1, 1, -1⟩, ⟨2, 2, 2, -2⟩] := by
        rw [hbuf2]
        exact rank_sorted_unique _ _ (RS.perm _) (RS.sorted _) (by decide)
      rw [hs]
      refine ⟨rfl, ?_⟩
      simp only [Option.map_some']
      rw [hseg, hsort]
      rfl

/-- The search primitive in terms of the matches among the visited nodes. -/
theorem find_best_points_eq_process (t : KdTree) (rect : Rect) (k : Int) (out : Int → Point) :
    t.find_best_points rect k (some out) =
      (min (process_all rect k (matching rect (visited rect t.root_ true))
          (initial_state out)).total_inside k,
        some (process_all rect k (matching rect (visited rect t.root_ true))
          (initial_state out)).out_points) := by
  simp only [KdTree.find_best_points]
  have h := find_best_points_rec_eq rect k t.root_ true (initial_state out)
  rw [process_all_matching] at h
  unfold initial_state at h
  rw [h]
  rfl

theorem visited_matching_nil (rect : Rect) (t : Node) (sx : Bool)
    (h : matching rect t.points = []) : matching rect (visited rect t sx) = [] := by
  have hs : (matching rect (visited rect t sx)).Sublist (matching rect t.points) :=
    List.Sublist.filter _ (visited_sublist rect t sx)
  rw [h] at hs
  exact List.sublist_nil.mp hs

/-- Claim C12.  `search` never returns a negative number; it returns 0 whenever the context
is absent, the destination buffer is absent, `count ≤ 0`, or no point of the tree matches;
with both pointers present it returns the count of the bounded search, a negative one
clamped to 0. -/
theorem search_never_negative (RS : StdSortPoints) (sc : Option SearchContext) (rect : Rect)
    (count : Int) (out_points : Option (Int → Point)) :
    0 ≤ (search RS sc rect count out_points).1 ∧
    ((sc = none ∨ out_points = none ∨ count ≤ 0 ∨
        (∃ ctx, sc = some ctx ∧ matching rect ctx.points.root_.points = [])) →
      (search RS sc rect count out_points).1 = 0) ∧
    (∀ (ctx : SearchContext) (out : Int → Point), sc = some ctx → out_points = some out →
      (search RS sc rect count out_points).1 =
        max 0 (ctx.copy_best_points rect count (some out)).1) := by
  have key3 : ∀ (ctx : SearchContext) (out : Int → Point),
      (search RS (some ctx) rect count (some out)).1 =
        max 0 (ctx.copy_best_points rect count (some out)).1 := by
    intro ctx out
    rw [search_some]
    by_cases hle : (ctx.copy_best_points rect count (some out)).1 ≤ 0
    · rw [if_pos hle]
      show (0 : Int) = _
      omega
    · rw [if_neg hle]
      show (ctx.copy_best_points rect count (some out)).1 = _
      omega
  refine ⟨?_, ?_, ?_⟩
  · cases out_points with
    | none => simp [search]
    | some out =>
      cases sc with
      | none => simp [search]
      | some ctx => rw [key3]; omega
  · intro h
    cases out_points with
    | none => simp [search]
    | some out =>
      cases sc with
      | none => simp [search]
      | some ctx =>
        rw [key3]
        have hr : (ctx.copy_best_points rect count (some out)).1 =
            min (process_all rect count (matching rect (visited rect ctx.points.root_ true))
              (initial_state out)).total_inside count := by
          show (ctx.points.find_best_points rect count (some out)).1 = _
          rw [find_best_points_eq_process]
        rcases h with h | h | h | ⟨ctx2, h1, h2⟩
        · exact absurd h (by simp)
        · exact absurd h (by simp)
        · rw [hr]; omega
        · have hc : ctx2 = ctx := (Option.some.inj h1).symm
          rw [hc] at h2
          rw [hr, visited_matching_nil rect _ true h2]
          simp only [process_all, List.foldl_nil, initial_state]
          omega
  · intro ctx out h1 h2
    rw [h1, h2, key3]

theorem matching_malformed (rect : Rect) (l : List Point)
    (h : rect.lx > rect.hx ∨ rect.ly > rect.hy) : matching rect l = [] := by
  unfold matching
  rw [List.filter_eq_nil_iff]
  intro p _ hin
  rw [inside_rect_iff] at hin
  omega

/-- Claim C13.  For every tree, every `k ≥ 0` and every rectangle with `lx > hx` or
`ly > hy`, `find_best_points` returns 0 and leaves the destination buffer unchanged: no
point passes the containment test. -/
theorem find_best_points_malformed_rect (t : KdTree) (rect : Rect) (k : Int)
    (out : Int → Point) (hbad : rect.lx > rect.hx ∨ rect.ly > rect.hy) (hk : 0 ≤ k) :
    t.find_best_points rect k (some out) = (0, some out) ∧
    ∀ p : Point, inside_rect rect p = false := by
  constructor
  · rw [find_best_points_eq_process, matching_malformed rect _ hbad]
    simp only [process_all, List.foldl_nil, initial_state]
    rw [min_eq_left hk]
  · intro p
    have h := matching_malformed rect [p] hbad
    unfold matching at h
    rw [List.filter_eq_nil_iff] at h
    simpa using h p (by simp)

theorem find_best_points_malformed_rect_witness :
    ((⟨5, 0, 1, 6⟩ : Rect).lx > (⟨5, 0, 1, 6⟩ : Rect).hx ∨
      (⟨5, 0, 1, 6⟩ : Rect).ly > (⟨5, 0, 1, 6⟩ : Rect).hy) ∧ (0 : Int) ≤ 3 ∧
    ((KdTree.mk fixture7_tree).find_best_points ⟨5, 0, 1, 6⟩ 3 (some blank_buffer) =
      (0, some blank_buffer) ∧
    ∀ p : Point, inside_rect ⟨5, 0, 1, 6⟩ p = false) :=
  ⟨by decide, by decide,
    find_best_points_malformed_rect ⟨fixture7_tree⟩ ⟨5, 0, 1, 6⟩ 3 blank_buffer (by decide)
      (by decide)⟩

/-! ## Pruning -/

theorem exhaustive_search_rec_eq (rect : Rect) (k : Int) (t : Node) (st : SearchState) :
    exhaustive_search_rec rect k t st = process_all rect k t.points st := by
  induction t generalizing st with
  | null => rfl
  | mk p l r ihl ihr =>
    simp only [exhaustive_search_rec, Node.points, process_all, List.foldl_cons,
      List.foldl_append]
    rw [ihl, ihr]
    rfl

/-- Claim C15.  For every tree that satisfies the kd split invariant (root splitting on
`x`), every rectangle, every `k` and every initial state of the buffer and counters, the pruned
depth-first search ends in the same state as the exhaustive depth-first traversal in the same
node, left, right order; `find_best_points` gives the same return value and final buffer as
its exhaustive variant; the matches among the visited nodes are all the matches of the
tree. -/
theorem pruned_search_eq_exhaustive (t : KdTree) (rect : Rect) (k : Int)
    (hkd : kd_inv true t.root_) :
    (∀ st : SearchState,
      find_best_points_rec rect k t.root_ true st = exhaustive_search_rec rect k t.root_ st) ∧
    (∀ out : Option (Int → Point),
      t.find_best_points rect k out = exhaustive_find_best_points t rect k out) ∧
    matching rect (visited rect t.root_ true) = matching rect t.root_.points := by
  have h1 : ∀ st : SearchState,
      find_best_points_rec rect k t.root_ true st =
        exhaustive_search_rec rect k t.root_ st := by
    intro st
    rw [find_best_points_rec_eq, exhaustive_search_rec_eq, process_all_matching,
      visited_matching rect t.root_ true hkd, ← process_all_matching]
  refine ⟨h1, ?_, visited_matching rect t.root_ true hkd⟩
  intro out
  cases out with
  | none => rfl
  | some buf =>
    simp only [KdTree.find_best_points, exhaustive_find_best_points, h1]

theorem pruned_search_eq_exhaustive_witness :
    kd_inv true (KdTree.mk fixture7_tree).root_ ∧
    ((∀ st : SearchState,
      find_best_points_rec rect_origin 2 (KdTree.mk fixture7_tree).root_ true st =
        exhaustive_search_rec rect_origin 2 (KdTree.mk fixture7_tree).root_ st) ∧
    (∀ out : Option (Int → Point),
      (KdTree.mk fixture7_tree).find_best_points rect_origin 2 out =
        exhaustive_find_best_points (KdTree.mk fixture7_tree) rect_origin 2 out) ∧
    matching rect_origin (visited rect_origin (KdTree.mk fixture7_tree).root_ true) =
      matching rect_origin (KdTree.mk fixture7_tree).root_.points) :=
  ⟨by simp [fixture7_tree, kd_inv, Node.points, key],
    pruned_search_eq_exhaustive ⟨fixture7_tree⟩ rect_origin 2
      (by simp [fixture7_tree, kd_inv, Node.points, key])⟩

/-! ## The full buffer -/

/-- Claim C20.  Once at least `k ≥ 1` matches have been seen (the counter `total_inside ≥ k`,
below `INT32_MAX`), processing a further point inside the rectangle whose rank is greater
than or equal to `worst_rank` leaves the buffer, `worst_idx` and `worst_rank` unchanged and
only increments the counter; a point whose rank is strictly lower is written at `worst_idx`
and no other entry changes. -/
theorem process_node_when_full (p : Point) (rect : Rect) (k : Int) (st : SearchState)
    (hin : inside_rect rect p = true) (hk : 1 ≤ k) (hfull : k ≤ st.total_inside)
    (hfit : st.total_inside < INT32_MAX) :
    (st.worst_rank ≤ p.rank →
      process_node p rect k st = { st with total_inside := st.total_inside + 1 }) ∧
    (p.rank < st.worst_rank →
      (process_node p rect k st).out_points st.worst_idx = p ∧
      (∀ j, j ≠ st.worst_idx → (process_node p rect k st).out_points j = st.out_points j) ∧
      (process_node p rect k st).total_inside = st.total_inside + 1) := by
  unfold INT32_MAX at hfit
  have hw : wrap32 (st.total_inside + 1) = st.total_inside + 1 :=
    wrap32_of_range _ (by omega) (by omega)
  have h1 : ¬ wrap32 (st.total_inside + 1) < k := by rw [hw]; omega
  constructor
  · intro hr
    have h2 : ¬ (wrap32 (st.total_inside + 1) = k ∨ p.rank < st.worst_rank) := by
      rw [hw]; omega
    rw [process_node_skip p rect k st hin h1 h2, hw]
  · intro hr
    rw [process_node_replace p rect k st hin h1 (Or.inr hr)]
    refine ⟨Function.update_same _ _ _, ?_, hw⟩
    intro j hj
    exact Function.update_noteq hj _ _

theorem process_node_when_full_witness :
    inside_rect rect_all ⟨9, 1, 0, 0⟩ = true ∧ (1 : Int) ≤ 2 ∧
    (2 : Int) ≤ (SearchState.mk blank_buffer 2 0 0).total_inside ∧
    (SearchState.mk blank_buffer 2 0 0).total_inside < INT32_MAX ∧
    (((SearchState.mk blank_buffer 2 0 0).worst_rank ≤ (⟨9, 1, 0, 0⟩ : Point).rank →
      process_node ⟨9, 1, 0, 0⟩ rect_all 2 (SearchState.mk blank_buffer 2 0 0) =
        { SearchState.mk blank_buffer 2 0 0 with
          total_inside := (SearchState.mk blank_buffer 2 0 0).total_inside + 1 }) ∧
    ((⟨9, 1, 0, 0⟩ : Point).rank < (SearchState.mk blank_buffer 2 0 0).worst_rank →
      (process_node ⟨9, 1, 0, 0⟩ rect_all 2 (SearchState.mk blank_buffer 2 0 0)).out_points
          (SearchState.mk blank_buffer 2 0 0).worst_idx = ⟨9, 1, 0, 0⟩ ∧
      (∀ j, j ≠ (SearchState.mk blank_buffer 2 0 0).worst_idx →
        (process_node ⟨9, 1, 0, 0⟩ rect_all 2 (SearchState.mk blank_buffer 2 0 0)).out_points j =
          (SearchState.mk blank_buffer 2 0 0).out_points j) ∧
      (process_node ⟨9, 1, 0, 0⟩ rect_all 2 (SearchState.mk blank_buffer 2 0 0)).total_inside =
        (SearchState.mk blank_buffer 2 0 0).total_inside + 1)) :=
  ⟨by decide, by decide, by decide, by decide,
    process_node_when_full ⟨9, 1, 0, 0⟩ rect_all 2 (SearchState.mk blank_buffer 2 0 0)
      (by decide) (by decide) (by decide) (by decide)⟩

/-- The buffer after `process_node` is the buffer before with, at most, the point written at
`write_index`. -/
theorem process_node_out_points (p : Point) (rect : Rect) (k : Int) (st : SearchState) :
    (process_node p rect k st).out_points =
      (match write_index p rect k st with
        | some i => Function.update st.out_points i p
        | none => st.out_points) := by
  unfold write_index
  by_cases hin : inside_rect rect p = true
  · by_cases h1 : wrap32 (st.total_inside + 1) < k
    · rw [process_node_fill p rect k st hin h1]
      simp only [hin, if_true, if_pos h1]
    · by_cases h2 : wrap32 (st.total_inside + 1) = k ∨ p.rank < st.worst_rank
      · rw [process_node_replace p rect k st hin h1 h2]
        simp only [hin, if_true, if_neg h1, if_pos h2]
      · rw [process_node_skip p rect k st hin h1 h2]
        simp only [hin, if_true, if_neg h1, if_neg h2]
  · have hout : inside_rect rect p = false := by simpa using hin
    rw [process_node_outside p rect k st hout]
    simp only [hout, Bool.false_eq_true, if_false]

theorem write_index_eq (p : Point) (rect : Rect) (k : Int) (st : SearchState) (i : Int)
    (h : write_index p rect k st = some i) : i = st.worst_idx := by
  unfold write_index at h
  split at h
  · split at h
    · exact (Option.some.inj h).symm
    · split at h
      · exact (Option.some.inj h).symm
      · exact absurd h (by simp)
  · exact absurd h (by simp)

/-- A call of `process_node` in a state whose `worst_idx` is in `[0, k)` changes no buffer
entry outside `[0, k)`. -/
theorem process_node_frame (p : Point) (rect : Rect) (k : Int) (st : SearchState)
    (hw : 0 ≤ st.worst_idx ∧ st.worst_idx < k) :
    ∀ j, j < 0 ∨ k ≤ j → (process_node p rect k st).out_points j = st.out_points j := by
  intro j hj
  rw [process_node_out_points]
  cases hwi : write_index p rect k st with
  | none => rfl
  | some i =>
    have := write_index_eq p rect k st i hwi
    simp only
    rw [Function.update_noteq]
    omega

/-- Throughout a search with `k ≥ 1`, `worst_idx` stays in `[0, k)`. -/
theorem process_all_worst_idx (rect : Rect) (k : Int) (out : Int → Point) (l : List Point)
    (hk : 1 ≤ k) (hlen : (l.length : Int) ≤ INT32_MAX) (hr : ∀ q ∈ l, INT32_MIN ≤ q.rank) :
    0 ≤ (process_all rect k l (initial_state out)).worst_idx ∧
    (process_all rect k l (initial_state out)).worst_idx < k := by
  have hlen2 : ((matching rect l).length : Int) ≤ INT32_MAX := by
    have h1 : (matching rect l).length ≤ l.length := List.length_filter_le _ _
    omega
  have inv := process_all_inv rect k out _ (matching_inside rect l) hlen2
  rw [← process_all_matching] at inv
  have hr2 : ∀ q ∈ matching rect l, INT32_MIN ≤ q.rank :=
    fun q hq => hr q (List.mem_of_mem_filter hq)
  by_cases hm : ((matching rect l).length : Int) < k
  · rw [inv.filling hm]
    omega
  · obtain ⟨_, w0, w1, _⟩ := inv.top hk (by omega) hr2
    exact ⟨w0, w1⟩

/-- Throughout a search with `k ≥ 1`, no buffer entry outside `[0, k)` is ever changed. -/
theorem process_all_frame (rect : Rect) (k : Int) (out : Int → Point) (l : List Point)
    (hk : 1 ≤ k) (hlen : (l.length : Int) ≤ INT32_MAX) (hr : ∀ q ∈ l, INT32_MIN ≤ q.rank) :
    ∀ j, j < 0 ∨ k ≤ j → (process_all rect k l (initial_state out)).out_points j = out j := by
  induction l using List.reverseRecOn with
  | nil => intro j _; rfl
  | append_singleton l p ih =>
    have hlen1 : (l.length : Int) ≤ INT32_MAX := by
      simp only [List.length_append, List.length_singleton] at hlen
      push_cast at hlen
      omega
    have hr1 : ∀ q ∈ l, INT32_MIN ≤ q.rank := fun q hq => hr q (List.mem_append_left _ hq)
    intro j hj
    rw [process_all_snoc,
      process_node_frame p rect k _ (process_all_worst_idx rect k out l hk hlen1 hr1) j hj]
    exact ih hlen1 hr1 j hj

/-- Claim C19.  Throughout every search with `k ≥ 1` (on a tree of at most `INT32_MAX` nodes
whose ranks are `int32_t` values): the search is the sequence of `process_node` calls on the
visited nodes, and after any initial part `l1` of that sequence the counter is the number of
matches seen; while fewer than `k` matches have been seen `worst_idx` is that number; once at
least `k` have been seen `worst_rank` is the highest rank among the first `k` buffer entries
and `worst_idx` the lowest index holding it; the next call of `process_node` changes the
buffer by, at most, writing its point at `write_index`, which is in `[0, k)`, so it changes no
entry outside `[0, k)`; and no entry outside `[0, k)` has been changed so far. -/
theorem search_bookkeeping (t : KdTree) (rect : Rect) (k : Int) (out : Int → Point)
    (hk : 1 ≤ k) (hsz : (t.size : Int) ≤ INT32_MAX)
    (hrank : ∀ p ∈ t.root_.points, INT32_MIN ≤ p.rank) :
    find_best_points_rec rect k t.root_ true (initial_state out) =
      process_all rect k (visited rect t.root_ true) (initial_state out) ∧
    ∀ l1 l2 : List Point, visited rect t.root_ true = l1 ++ l2 →
      (process_all rect k l1 (initial_state out)).total_inside = (matching rect l1).length ∧
      (((matching rect l1).length : Int) < k →
        (process_all rect k l1 (initial_state out)).worst_idx = (matching rect l1).length) ∧
      (k ≤ ((matching rect l1).length : Int) →
        0 ≤ (process_all rect k l1 (initial_state out)).worst_idx ∧
        (process_all rect k l1 (initial_state out)).worst_idx < k ∧
        ((process_all rect k l1 (initial_state out)).out_points
          (process_all rect k l1 (initial_state out)).worst_idx).rank =
          (process_all rect k l1 (initial_state out)).worst_rank ∧
        (∀ j, 0 ≤ j → j < k →
          ((process_all rect k l1 (initial_state out)).out_points j).rank ≤
            (process_all rect k l1 (initial_state out)).worst_rank) ∧
        (∀ j, 0 ≤ j → j < (process_all rect k l1 (initial_state out)).worst_idx →
          ((process_all rect k l1 (initial_state out)).out_points j).rank <
            (process_all rect k l1 (initial_state out)).worst_rank)) ∧
      (∀ (p : Point) (l3 : List Point), l2 = p :: l3 →
        (process_node p rect k (process_all rect k l1 (initial_state out))).out_points =
          (match write_index p rect k (process_all rect k l1 (initial_state out)) with
            | some i =>
              Function.update (process_all rect k l1 (initial_state out)).out_points i p
            | none => (process_all rect k l1 (initial_state out)).out_points) ∧
        (∀ i : Int,
          write_index p rect k (process_all rect k l1 (initial_state out)) = some i →
            0 ≤ i ∧ i < k) ∧
        (∀ j, j < 0 ∨ k ≤ j →
          (process_node p rect k (process_all rect k l1 (initial_state out))).out_points j =
            (process_all rect k l1 (initial_state out)).out_points j)) ∧
      (∀ j, j < 0 ∨ k ≤ j → (process_all rect k l1 (initial_state out)).out_points j = out j) := by
  refine ⟨find_best_points_rec_eq _ _ _ _ _, ?_⟩
  intro l1 l2 hv
  have hsub : l1.Sublist t.root_.points := by
    have h1 : l1.Sublist (visited rect t.root_ true) := by
      rw [hv]; exact List.sublist_append_left l1 l2
    exact h1.trans (visited_sublist rect t.root_ true)
  have hlen : ((matching rect l1).length : Int) ≤ INT32_MAX := by
    have h1 : (matching rect l1).length ≤ l1.length := List.length_filter_le _ _
    have h2 := hsub.length_le
    have h3 : t.size = t.root_.points.length := size_eq_length_points _
    omega
  have inv := process_all_inv rect k out _ (matching_inside rect l1) hlen
  rw [← process_all_matching] at inv
  have hr : ∀ q ∈ matching rect l1, INT32_MIN ≤ q.rank := by
    intro q hq
    exact hrank q (hsub.subset (List.mem_of_mem_filter hq))
  have hlen1 : (l1.length : Int) ≤ INT32_MAX := by
    have h2 := hsub.length_le
    have h3 : t.size = t.root_.points.length := size_eq_length_points _
    omega
  have hr1 : ∀ q ∈ l1, INT32_MIN ≤ q.rank := fun q hq => hrank q (hsub.subset hq)
  have hw := process_all_worst_idx rect k out l1 hk hlen1 hr1
  refine ⟨inv.total, inv.filling, ?_, ?_, process_all_frame rect k out l1 hk hlen1 hr1⟩
  · intro hfull
    obtain ⟨_, w0, w1, w2, w3, w4⟩ := inv.top hk hfull hr
    exact ⟨w0, w1, w2, w3, w4⟩
  · intro p l3 _
    refine ⟨process_node_out_points p rect k _, ?_, process_node_frame p rect k _ hw⟩
    intro i hi
    rw [write_index_eq p rect k _ i hi]
    exact hw

theorem search_bookkeeping_witness :
    (1 : Int) ≤ 3 ∧ ((KdTree.mk fixture7_tree).size : Int) ≤ INT32_MAX ∧
    (∀ p ∈ (KdTree.mk fixture7_tree).root_.points, INT32_MIN ≤ p.rank) ∧
    (find_best_points_rec rect_all 3 (KdTree.mk fixture7_tree).root_ true
        (initial_state blank_buffer) =
      process_all rect_all 3 (visited rect_all (KdTree.mk fixture7_tree).root_ true)
        (initial_state blank_buffer) ∧
    ∀ l1 l2 : List Point, visited rect_all (KdTree.mk fixture7_tree).root_ true = l1 ++ l2 →
      (process_all rect_all 3 l1 (initial_state blank_buffer)).total_inside =
        (matching rect_all l1).length ∧
      (((matching rect_all l1).length : Int) < 3 →
        (process_all rect_all 3 l1 (initial_state blank_buffer)).worst_idx =
          (matching rect_all l1).length) ∧
      ((3 : Int) ≤ ((matching rect_all l1).length : Int) →
        0 ≤ (process_all rect_all 3 l1 (initial_state blank_buffer)).worst_idx ∧
        (process_all rect_all 3 l1 (initial_state blank_buffer)).worst_idx < 3 ∧
        ((process_all rect_all 3 l1 (initial_state blank_buffer)).out_points
          (process_all rect_all 3 l1 (initial_state blank_buffer)).worst_idx).rank =
          (process_all rect_all 3 l1 (initial_state blank_buffer)).worst_rank ∧
        (∀ j, 0 ≤ j → j < 3 →
          ((process_all rect_all 3 l1 (initial_state blank_buffer)).out_points j).rank ≤
            (process_all rect_all 3 l1 (initial_state blank_buffer)).worst_rank) ∧
        (∀ j, 0 ≤ j → j < (process_all rect_all 3 l1 (initial_state blank_buffer)).worst_idx →
          ((process_all rect_all 3 l1 (initial_state blank_buffer)).out_points j).rank <
            (process_all rect_all 3 l1 (initial_state blank_buffer)).worst_rank)) ∧
      (∀ (p : Point) (l3 : List Point), l2 = p :: l3 →
        (process_node p rect_all 3
            (process_all rect_all 3 l1 (initial_state blank_buffer))).out_points =
          (match write_index p rect_all 3
              (process_all rect_all 3 l1 (initial_state blank_buffer)) with
            | some i =>
              Function.update
                (process_all rect_all 3 l1 (initial_state blank_buffer)).out_points i p
            | none => (process_all rect_all 3 l1 (initial_state blank_buffer)).out_points) ∧
        (∀ i : Int,
          write_index p rect_all 3 (process_all rect_all 3 l1 (initial_state blank_buffer)) =
            some i → 0 ≤ i ∧ i < 3) ∧
        (∀ j, j < 0 ∨ (3 : Int) ≤ j →
          (process_node p rect_all 3
              (process_all rect_all 3 l1 (initial_state blank_buffer))).out_points j =
            (process_all rect_all 3 l1 (initial_state blank_buffer)).out_points j)) ∧
      (∀ j, j < 0 ∨ (3 : Int) ≤ j →
        (process_all rect_all 3 l1 (initial_state blank_buffer)).out_points j =
          blank_buffer j)) :=
  ⟨by decide, by decide, by decide,
    search_bookkeeping ⟨fixture7_tree⟩ rect_all 3 blank_buffer (by decide) (by decide)
      (by decide)⟩

/-! ## The height of the tree -/

theorem points_eq_nil (t : Node) (h : t.points = []) : t = Node.null := by
  cases t with
  | null => rfl
  | mk p l r => simp [Node.points] at h

/-- A tree with the kd split invariant whose points all share both coordinates is a chain of
right children: its height is its size. -/
theorem height_of_equal_points (t : Node) (sx : Bool) (hkd : kd_inv sx t)
    (heq : ∀ p ∈ t.points, ∀ q ∈ t.points, p.x = q.x ∧ p.y = q.y) : height t = size t := by
  induction t generalizing sx with
  | null => rfl
  | mk p l r _ ihr =>
    obtain ⟨hl, _, _, kr⟩ := hkd
    have hlnil : l = Node.null := by
      apply points_eq_nil
      rw [List.eq_nil_iff_forall_not_mem]
      intro q hq
      have h1 := hl q hq
      have h2 := heq q (by simp [Node.points, hq]) p (by simp [Node.points])
      cases sx <;> simp [key] at h1 <;> omega
    subst hlnil
    have hr := ihr (!sx) kr (by
      intro a ha b hb
      exact heq a (by simp [Node.points, ha]) b (by simp [Node.points, hb]))
    simp only [height, size, hr]
    omega

theorem exponential_beats_linear (c : Nat) : c * (2 * c + 2 + 1) < 2 ^ (2 * c + 2) := by
  have h1 : c < 2 ^ c := Nat.lt_two_pow c
  have h2 : 2 * c + 3 ≤ 2 ^ (c + 2) := by
    have : 2 ^ (c + 2) = 4 * 2 ^ c := by rw [pow_add]; ring
    omega
  have h3 : 2 ^ (2 * c + 2) = 2 ^ c * 2 ^ (c + 2) := by
    rw [← pow_add]; congr 1; omega
  rw [h3]
  calc c * (2 * c + 2 + 1) ≤ c * 2 ^ (c + 2) := Nat.mul_le_mul_left c h2
    _ < 2 ^ c * 2 ^ (c + 2) := Nat.mul_lt_mul_of_pos_right h1 (by positivity)

/-- No constant `c` bounds the height of the trees `build_tree` produces by
`c * (log2 n + 1)`: from `n = 2 ^ (2c + 2)` copies of one point it produces a chain of height
`n`. -/
theorem height_not_logarithmic : ¬ ∃ c : Nat, height_bound c := by
  rintro ⟨c, hc⟩
  have hpos : 0 < 2 ^ (2 * c + 2) := by positivity
  have hne : List.replicate (2 ^ (2 * c + 2)) (⟨0, 0, 0, 0⟩ : Point) ≠ [] := by
    intro h
    have := congrArg List.length h
    simp at this
  obtain ⟨root, hb, hperm, hkd⟩ := build_tree_spec KdTree.new insertion_sort _ hne
  have hh := hc insertion_sort _ hne root _ hb
  have hall : ∀ p ∈ root.points, p = (⟨0, 0, 0, 0⟩ : Point) := by
    intro p hp
    exact List.eq_of_mem_replicate ((List.Perm.mem_iff hperm).mp hp)
  have hheight : height root = size root :=
    height_of_equal_points root true hkd (by
      intro p hp q hq
      rw [hall p hp, hall q hq]
      exact ⟨rfl, rfl⟩)
  have hsize : size root = 2 ^ (2 * c + 2) := by
    rw [size_eq_length_points, hperm.length_eq, List.length_replicate]
  rw [hheight, hsize, List.length_replicate, Nat.log_pow (by omega)] at hh
  have := exponential_beats_linear c
  omega

/-- From `n + 1` copies of one point `build_tree` produces a chain of height `n + 1`. -/
theorem equal_points_chain (t0 : KdTree) (S : StdSort) (p : Point) (n : Nat) :
    ∃ root : Node, t0.build_tree S true true (List.replicate (n + 1) p) = some (root, ⟨root⟩) ∧
      height root = n + 1 := by
  have hne : List.replicate (n + 1) p ≠ [] := by simp [List.replicate_succ]
  obtain ⟨root, hb, hperm, hkd⟩ := build_tree_spec t0 S _ hne
  have hall : ∀ q ∈ root.points, q = p := by
    intro q hq
    exact List.eq_of_mem_replicate ((List.Perm.mem_iff hperm).mp hq)
  have hheight : height root = size root :=
    height_of_equal_points root true hkd (by
      intro a ha b hb
      rw [hall a ha, hall b hb]
      exact ⟨rfl, rfl⟩)
  refine ⟨root, hb, ?_⟩
  rw [hheight, size_eq_length_points, hperm.length_eq, List.length_replicate]

/-- Claim C14, at its failing inputs.  From `n` copies of one point `build_tree` produces,
for every sorting routine, a chain of height `n`: at every level the median is shifted to the
first position of the run of equal values and the left range is empty.  So 16 equal points
give height 16, where `log2 16 + 1 = 5`, and no constant `c` bounds the height by
`c * (log2 n + 1)`. -/
theorem build_tree_equal_points_chain :
    (∀ (t0 : KdTree) (S : StdSort) (n : Nat), ∃ root : Node,
      t0.build_tree S true true (List.replicate (n + 1) ⟨0, 0, 0, 0⟩) = some (root, ⟨root⟩) ∧
      height root = n + 1) ∧
    (∃ root : Node,
      KdTree.new.build_tree insertion_sort true true (List.replicate 16 ⟨0, 0, 0, 0⟩) =
        some (root, ⟨root⟩) ∧
      height root = 16 ∧ Nat.log 2 (List.replicate 16 (⟨0, 0, 0, 0⟩ : Point)).length + 1 = 5) ∧
    ¬ ∃ c : Nat, height_bound c := by
  refine ⟨fun t0 S n => equal_points_chain t0 S _ n, ?_, height_not_logarithmic⟩
  obtain ⟨root, hb, hh⟩ := equal_points_chain KdTree.new insertion_sort ⟨0, 0, 0, 0⟩ 15
  refine ⟨root, hb, hh, ?_⟩
  rw [List.length_replicate]
  have : (16 : Nat) = 2 ^ 4 := by norm_num
  rw [this, Nat.log_pow (by omega)]

/-! ## The calls of `insert_median` -/

/-- The step of a call on a range of at least two positions that satisfies `RangeInv`. -/
theorem call_step (points : Int → Point) (c : Call) (n : Nat)
    (hend : c.end_ = c.start + n - 1) (hn : 2 ≤ n)
    (inv : RangeInv points c.indices c.other_indices c.start n c.split_x) :
    ∃ a b : Nat, CallStep points c n a b := by
  obtain ⟨indices, other, temp, start, end_, sx, fuel⟩ := c
  simp only at hend inv
  subst hend
  have hmid1 : start ≤ start + (start + n - 1 - start) / 2 := by omega
  have hmid2 : (start + (start + (n : Int) - 1 - start) / 2 - start) ≤
      ((start + (start + (n : Int) - 1 - start) / 2 - start).toNat : Int) := by omega
  obtain ⟨s1, s2, s3, s4, s5⟩ := shift_median_spec indices points start sx
    (start + (start + n - 1 - start) / 2 - start).toNat
    (start + (start + n - 1 - start) / 2) hmid1 hmid2
  generalize hsm : shift_median indices points start sx
    (start + (start + (n : Int) - 1 - start) / 2 - start).toNat
    (start + (start + n - 1 - start) / 2)
    (indices (start + (start + n - 1 - start) / 2)) = sm at s1 s2 s3 s4 s5
  obtain ⟨mi, mpi⟩ := sm
  simp only at s1 s2 s3 s4 s5
  subst s3
  obtain ⟨a, b, hmi, hnab, hlt, hge, hne⟩ := median_facts points indices other start n sx hn
    inv mi s1 s2 s5
  subst hmi
  obtain ⟨hLp, hUp⟩ := partition_facts points indices other start n sx inv a b hnab hlt hge
    hne
  have hLlen := hLp.length_eq
  have hUlen := hUp.length_eq
  rw [seg_length] at hLlen hUlen
  have hnn : (start + (n : Int) - 1 + 1 - start).toNat = n := by omega
  obtain ⟨p1, p2, p3, p4, _⟩ := partition_loop_spec other points
    (points (indices (start + a))) (indices (start + a)) sx n start temp start
    (start + a + 1) (by rw [hLlen]; omega)
  generalize hpl : partition_loop other points (points (indices (start + a)))
    (indices (start + a)) sx n start temp start (start + a + 1) = pl at p1 p2 p3 p4
  obtain ⟨temp1, lower, upper⟩ := pl
  simp only at p1 p2 p3 p4
  rw [hLlen] at p1 p3
  rw [hUlen] at p2 p4
  have hmed : Call.median points ⟨indices, other, temp, start, start + n - 1, sx, fuel⟩ =
      (start + a, indices (start + a)) := hsm
  have hpart : Call.partition points ⟨indices, other, temp, start, start + n - 1, sx, fuel⟩ =
      (temp1, lower, upper) := by
    simp only [Call.partition, hmed, hnn]
    exact hpl
  have hcop : Call.copied points ⟨indices, other, temp, start, start + n - 1, sx, fuel⟩ =
      copy_loop temp1 n start other := by
    simp only [Call.copied, hpart, hnn]
  have hcopy := copy_loop_spec temp1 n start other
  have hoL : seg (copy_loop temp1 n start other) start a = seg temp1 start a := by
    apply seg_congr
    intro j h1 h2
    rw [hcopy, if_pos]
    omega
  have hoU : seg (copy_loop temp1 n start other) (start + a + 1) b =
      seg temp1 (start + a + 1) b := by
    apply seg_congr
    intro j h1 h2
    rw [hcopy, if_pos]
    omega
  have hsplit := seg_split3 indices start a b
  have hsorted := inv.sorted_ind
  have hnodup := inv.nodup
  rw [hnab, hsplit] at hsorted hnodup
  have hsortedO := inv.sorted_oth
  refine ⟨a, b, ⟨hnab, ?_, hmed, ?_, ?_, ?_, ?_, ?_, hlt, hge, ?_, ?_⟩⟩
  · show (a : Int) ≤ (start + n - 1 - start) / 2
    omega
  · exact s4
  · rw [hpart]
    show (lower, upper) = _
    rw [p1, p2]
    exact Prod.ext rfl (by show start + a + 1 + (b : Int) = start + n - 1 + 1; omega)
  · rw [hcop]
    show seg (copy_loop temp1 n start other) start a = _
    rw [hoL, p3]
  · rw [hcop]
    show seg (copy_loop temp1 n start other) (start + a + 1) b = _
    rw [hoU, p4]
  · intro j hj
    rw [hcop, hcopy, if_neg]
    have hj2 : j < start ∨ start + (n : Int) - 1 < j := hj
    omega
  · rw [hcop]
    refine ⟨?_, ?_, ?_, ?_⟩
    · rw [hoL, p3]
      exact List.Pairwise.sublist (List.filter_sublist _) hsortedO
    · rw [Bool.not_not]
      exact (List.pairwise_append.mp hsorted).1
    · rw [hoL, p3]; exact hLp
    · rw [hoL, p3]
      exact (List.Perm.nodup_iff hLp).mpr (List.nodup_append.mp hnodup).1
  · rw [hcop]
    have hsuf := (List.pairwise_cons.mp (List.pairwise_append.mp hsorted).2.1).2
    have hsufnd := (List.nodup_cons.mp (List.nodup_append.mp hnodup).2.1).2
    refine ⟨?_, ?_, ?_, ?_⟩
    · rw [hoU, p4]
      exact List.Pairwise.sublist (List.filter_sublist _) hsortedO
    · rw [Bool.not_not]
      exact hsuf
    · rw [hoU, p4]; exact hUp
    · rw [hoU, p4]
      exact (List.Perm.nodup_iff hUp).mpr hsufnd

theorem call_result_node (points : Int → Point) (c : Call) (fuel : Nat)
    (hf : c.fuel = fuel + 1) (hgt : c.end_ > c.start) (left : Node) (o2 i2 t2 : indices_t)
    (hL : insert_median fuel (c.copied points) c.indices (c.partition points).1 points c.start
      ((c.partition points).2.1 - 1) (!c.split_x) = some (left, o2, i2, t2))
    (right : Node) (o3 i3 t3 : indices_t)
    (hR : insert_median fuel o2 i2 t2 points ((c.median points).1 + 1)
      ((c.partition points).2.2 - 1) (!c.split_x) = some (right, o3, i3, t3)) :
    c.result points = some (Node.mk (points (c.median points).2) left right, i3, o3, t3) := by
  unfold Call.result
  rw [hf]
  exact insert_median_node fuel c.indices c.other_indices c.temp_indices points c.start c.end_
    c.split_x hgt (c.median points).1 (c.median points).2 rfl (c.partition points).1
    (c.partition points).2.1 (c.partition points).2.2 rfl left o2 i2 t2 hL right o3 i3 t3 hR

/-- A call on a range of at least two positions that satisfies `RangeInv`, with a budget
larger than the range: both recursive calls return, on ranges that satisfy `RangeInv`, and the
call returns the node of the median with their trees as children. -/
theorem call_children (points : Int → Point) (c : Call) (n a b : Nat) (fuel : Nat)
    (hf : c.fuel = fuel + 1) (hend : c.end_ = c.start + n - 1) (hn : 2 ≤ n) (hfuel : n ≤ fuel)
    (st : CallStep points c n a b) :
    ∃ (tl tr : Node) (o2 i2 t2 o3 i3 t3 : indices_t),
      Call.result points ⟨c.copied points, c.indices, (c.partition points).1, c.start,
        c.start + a - 1, !c.split_x, fuel⟩ = some (tl, o2, i2, t2) ∧
      c.left points = some ⟨c.copied points, c.indices, (c.partition points).1, c.start,
        c.start + a - 1, !c.split_x, fuel⟩ ∧
      RangeInv points o2 i2 (c.start + a + 1) b (!c.split_x) ∧
      Call.result points ⟨o2, i2, t2, c.start + a + 1, c.start + a + 1 + b - 1, !c.split_x,
        fuel⟩ = some (tr, o3, i3, t3) ∧
      c.right points = some ⟨o2, i2, t2, c.start + a + 1, c.start + a + 1 + b - 1,
        !c.split_x, fuel⟩ ∧
      c.result points = some (Node.mk (points (c.indices (c.start + a))) tl tr, i3, o3, t3) := by
  have hgt : c.end_ > c.start := by omega
  have hnab := st.size_eq
  have hlow : (c.partition points).2.1 - 1 = c.start + a - 1 := by rw [st.bounds]
  have hupp : (c.partition points).2.2 - 1 = c.start + a + 1 + b - 1 := by
    rw [st.bounds]
    show c.end_ + 1 - 1 = _
    omega
  have hmi : (c.median points).1 + 1 = c.start + a + 1 := by rw [st.median_eq]
  have hmp : (c.median points).2 = c.indices (c.start + a) := by rw [st.median_eq]
  obtain ⟨tl, o2, i2, t2, hLcall, _, _, hLf1, hLf2⟩ :=
    insert_median_spec points fuel (c.copied points) c.indices (c.partition points).1 c.start a
      (!c.split_x) (by omega) st.left_inv
  have invR : RangeInv points o2 i2 (c.start + a + 1) b (!c.split_x) := by
    refine RangeInv_of_seg_eq points _ _ o2 i2 _ _ _ ?_ ?_ st.right_inv
    · apply seg_congr
      intro j h1 h2
      exact hLf1 j (Or.inr (by omega))
    · apply seg_congr
      intro j h1 h2
      exact hLf2 j (Or.inr (by omega))
  obtain ⟨tr, o3, i3, t3, hRcall, _, _, _, _⟩ :=
    insert_median_spec points fuel o2 i2 t2 (c.start + a + 1) b (!c.split_x) (by omega) invR
  refine ⟨tl, tr, o2, i2, t2, o3, i3, t3, hLcall, ?_, invR, hRcall, ?_, ?_⟩
  · simp only [Call.left, if_pos hgt, hf, hlow]
  · simp only [Call.right, if_pos hgt, hf, hlow, hLcall, hmi, hupp]
  · have := call_result_node points c fuel hf hgt tl o2 i2 t2 (by rw [hlow]; exact hLcall)
      tr o3 i3 t3 (by rw [hmi, hupp]; exact hRcall)
    rw [this, hmp]

/-! ## The median at every node -/

theorem seg_getD {α : Type} (f : Int → α) (s : Int) (n : Nat) (j : Nat) (d : α) (h : j < n) :
    (seg f s n).getD j d = f (s + j) := by
  induction n generalizing s j with
  | zero => omega
  | succ n ih =>
    cases j with
    | zero => simp [seg]
    | succ j =>
      simp only [seg, List.getD_cons_succ]
      rw [ih (s + 1) j (by omega)]
      congr 1
      push_cast
      ring

theorem kd_left_filter (sx : Bool) (p : Point) (l r : Node) (h : kd_inv sx (Node.mk p l r)) :
    (Node.mk p l r).points.filter (fun q => decide (key sx q < key sx p)) = l.points := by
  obtain ⟨hl, hr, _, _⟩ := h
  simp only [Node.points]
  rw [List.filter_cons_of_neg (by simp), List.filter_append]
  have h1 : l.points.filter (fun q => decide (key sx q < key sx p)) = l.points := by
    rw [List.filter_eq_self]
    intro q hq
    simpa using hl q hq
  have h2 : r.points.filter (fun q => decide (key sx q < key sx p)) = [] := by
    rw [List.filter_eq_nil_iff]
    intro q hq
    simpa using hr q hq
  rw [h1, h2, List.append_nil]

/-- The sorted split coordinates of a tree built from a range of the primary ordering are
the split coordinates along that range. -/
theorem sorted_keys_of_range (points : Int → Point) (indices : indices_t) (start : Int)
    (n : Nat) (sx : Bool) (t : Node)
    (hperm : t.points.Perm ((seg indices start n).map points))
    (hsorted : (seg indices start n).Pairwise
      (fun i j => key sx (points i) ≤ key sx (points j))) :
    sorted_keys sx t.points = seg (fun j => key sx (points (indices j))) start n := by
  have e : ((seg indices start n).map points).map (key sx) =
      seg (fun j => key sx (points (indices j))) start n := by
    rw [seg_map, seg_map]
  have hp : (sorted_keys sx t.points).Perm
      (seg (fun j => key sx (points (indices j))) start n) := by
    rw [← e]
    exact (List.perm_insertionSort _ _).trans (List.Perm.map _ hperm)
  have h1 : (sorted_keys sx t.points).Sorted (· ≤ ·) := List.sorted_insertionSort _ _
  have h2 : (seg (fun j => key sx (points (indices j))) start n).Sorted (· ≤ ·) := by
    rw [← e, List.map_map]
    exact List.pairwise_map.mpr hsorted
  exact List.eq_of_perm_of_sorted hp h1 h2

/-- Every node of the tree a call returns holds the lower median of its subtree. -/
theorem call_lower_median (points : Int → Point) (f : Nat) :
    ∀ (c : Call) (n : Nat), c.fuel = f → c.end_ = c.start + n - 1 → n < f →
      RangeInv points c.indices c.other_indices c.start n c.split_x →
      ∀ r, c.result points = some r → lower_median_at c.split_x r.1 := by
  induction f with
  | zero => intro _ n _ _ h; omega
  | succ f ih =>
    intro c n hf hend hfuel inv r hr
    rcases Nat.lt_or_ge n 2 with hn | hn
    · rcases Nat.lt_or_ge n 1 with hn0 | hn1
      · have h0 : n = 0 := by omega
        subst h0
        unfold Call.result at hr
        rw [hf, insert_median_empty _ _ _ _ _ _ _ _ (by rw [hend]; push_cast; omega)] at hr
        rw [← Option.some.inj hr]
        exact trivial
      · have h1 : n = 1 := by omega
        subst h1
        have he : c.end_ = c.start := by rw [hend]; push_cast; ring
        unfold Call.result at hr
        rw [hf, he, insert_median_leaf] at hr
        rw [← Option.some.inj hr]
        simp [lower_median_at, sorted_keys, Node.points, size]
    · obtain ⟨a, b, st⟩ := call_step points c n hend hn inv
      obtain ⟨tl, tr, o2, i2, t2, o3, i3, t3, hL, _, invR, hR, _, hres⟩ :=
        call_children points c n a b f hf hend hn (by omega) st
      have hnab := st.size_eq
      rw [hres] at hr
      rw [← Option.some.inj hr]
      have ihl := ih ⟨c.copied points, c.indices, (c.partition points).1, c.start,
        c.start + a - 1, !c.split_x, f⟩ a rfl rfl (by omega) st.left_inv _ hL
      have ihr := ih ⟨o2, i2, t2, c.start + a + 1, c.start + a + 1 + b - 1, !c.split_x, f⟩
        b rfl rfl (by omega) invR _ hR
      obtain ⟨t1, i1, o1, tt1, hcall, hperm, hkd, _, _⟩ :=
        insert_median_spec points (f + 1) c.indices c.other_indices c.temp_indices c.start n
          c.split_x hfuel inv
      have hres2 : c.result points = some (t1, i1, o1, tt1) := by
        unfold Call.result
        rw [hf, hend]
        exact hcall
      rw [hres] at hres2
      have ht : Node.mk (points (c.indices (c.start + a))) tl tr = t1 :=
        congrArg Prod.fst (Option.some.inj hres2)
      rw [← ht] at hperm hkd
      refine ⟨?_, kd_left_filter _ _ _ _ hkd, ihl, ihr⟩
      rw [sorted_keys_of_range points c.indices c.start n c.split_x _ hperm inv.sorted_ind]
      have hsz : size (Node.mk (points (c.indices (c.start + a))) tl tr) = n := by
        rw [size_eq_length_points, hperm.length_eq, List.length_map, seg_length]
      rw [hsz, seg_getD _ _ _ _ _ (by omega), st.median_key]
      have hpos : c.start + (((n - 1) / 2 : Nat) : Int) = c.start + (c.end_ - c.start) / 2 := by
        rw [hend]
        omega
      rw [hpos]

/-- Every node of the tree a call returns is the first entry with the median's value in the
primary ordering of the call that returns it. -/
theorem call_first_median (points : Int → Point) (f : Nat) :
    ∀ (c : Call) (n : Nat), c.fuel = f → c.end_ = c.start + n - 1 → n < f →
      RangeInv points c.indices c.other_indices c.start n c.split_x →
      ∀ r, c.result points = some r → first_median_at points c r.1 := by
  induction f with
  | zero => intro _ n _ _ h; omega
  | succ f ih =>
    intro c n hf hend hfuel inv r hr
    have hnn : (c.end_ + 1 - c.start).toNat = n := by rw [hend]; omega
    rcases Nat.lt_or_ge n 2 with hn | hn
    · rcases Nat.lt_or_ge n 1 with hn0 | hn1
      · have h0 : n = 0 := by omega
        subst h0
        unfold Call.result at hr
        rw [hf, insert_median_empty _ _ _ _ _ _ _ _ (by rw [hend]; push_cast; omega)] at hr
        rw [← Option.some.inj hr]
        show c.end_ < c.start
        rw [hend]; push_cast; omega
      · have h1 : n = 1 := by omega
        subst h1
        have he : c.end_ = c.start := by rw [hend]; push_cast; ring
        have hmid : c.start + (c.end_ - c.start) / 2 = c.start := by rw [he]; omega
        unfold Call.result at hr
        rw [hf, he, insert_median_leaf] at hr
        rw [← Option.some.inj hr]
        refine ⟨?_, ?_, ⟨c.start, le_refl _, by omega, rfl, by rw [hmid], ?_⟩,
          fun _ => ⟨rfl, rfl⟩, fun h => absurd h (by omega)⟩
        · rw [hnn]; simp [seg]
        · rw [hnn]; simp [seg, Node.points]
        · intro j h1 h2; omega
    · obtain ⟨a, b, st⟩ := call_step points c n hend hn inv
      obtain ⟨tl, tr, o2, i2, t2, o3, i3, t3, hL, hleft, invR, hR, hright, hres⟩ :=
        call_children points c n a b f hf hend hn (by omega) st
      have hnab := st.size_eq
      rw [hres] at hr
      rw [← Option.some.inj hr]
      have ihl := ih ⟨c.copied points, c.indices, (c.partition points).1, c.start,
        c.start + a - 1, !c.split_x, f⟩ a rfl rfl (by omega) st.left_inv _ hL
      have ihr := ih ⟨o2, i2, t2, c.start + a + 1, c.start + a + 1 + b - 1, !c.split_x, f⟩
        b rfl rfl (by omega) invR _ hR
      obtain ⟨t1, i1, o1, tt1, hcall, hperm, _, _, _⟩ :=
        insert_median_spec points (f + 1) c.indices c.other_indices c.temp_indices c.start n
          c.split_x hfuel inv
      have hres2 : c.result points = some (t1, i1, o1, tt1) := by
        unfold Call.result
        rw [hf, hend]
        exact hcall
      rw [hres] at hres2
      have ht : Node.mk (points (c.indices (c.start + a))) tl tr = t1 :=
        congrArg Prod.fst (Option.some.inj hres2)
      rw [← ht] at hperm
      refine ⟨?_, ?_, ⟨c.start + a, by omega, ?_, rfl, st.median_key, ?_⟩,
        fun h => absurd h (by omega), fun _ => ⟨_, _, hleft, hright, ihl, ihr⟩⟩
      · rw [hnn]; exact inv.sorted_ind
      · rw [hnn]; exact hperm
      · have := st.left_le
        omega
      · intro j h1 h2
        exact st.left_lt _ ((mem_seg _ _ _ _).mpr ⟨j, h1, h2, rfl⟩)

theorem root_range_inv (S : StdSort) (pts : List Point) :
    RangeInv (point_array pts) (root_call S pts).indices (root_call S pts).other_indices 0
      pts.length true := by
  have hxp := S.perm (fun i => (point_array pts i).x) (iota pts.length)
  have hyp := S.perm (fun i => (point_array pts i).y) (iota pts.length)
  have hxs := S.sorted (fun i => (point_array pts i).x) (iota pts.length)
  have hys := S.sorted (fun i => (point_array pts i).y) (iota pts.length)
  have hxl : (S.sort (fun i => (point_array pts i).x) (iota pts.length)).length = pts.length := by
    rw [hxp.length_eq, iota_length]
  have hyl : (S.sort (fun i => (point_array pts i).y) (iota pts.length)).length = pts.length := by
    rw [hyp.length_eq, iota_length]
  have hsx := seg_vec (S.sort (fun i => (point_array pts i).x) (iota pts.length))
  have hsy := seg_vec (S.sort (fun i => (point_array pts i).y) (iota pts.length))
  rw [hxl] at hsx
  rw [hyl] at hsy
  simp only [root_call]
  refine ⟨?_, ?_, ?_, ?_⟩
  · rw [hsx]; exact hxs
  · rw [hsy]; exact hys
  · rw [hsx, hsy]; exact hxp.trans hyp.symm
  · rw [hsx]; exact (List.Perm.nodup_iff hxp).mpr (iota_nodup _)

/-- On a non-empty input `build_tree` returns what its call of `insert_median` returns. -/
theorem build_tree_root_call (t0 : KdTree) (S : StdSort) (pts : List Point) (h : pts ≠ [])
    (root : Node) (tree : KdTree) (hb : t0.build_tree S true true pts = some (root, tree)) :
    ∃ r, (root_call S pts).result (point_array pts) = some r ∧ r.1 = root := by
  have hlen : 0 < pts.length := List.length_pos.mpr h
  have hle : ¬ pts.length ≤ 0 := by omega
  simp only [KdTree.build_tree, Bool.not_true, Bool.or_self, Bool.false_eq_true, if_false,
    hle] at hb
  unfold Call.result root_call
  simp only
  split at hb
  · exact absurd hb (by simp)
  · rename_i root2 rest heq
    refine ⟨_, heq, ?_⟩
    have := Option.some.inj hb
    exact congrArg Prod.fst this

/-- Claim C17.  In every tree produced by `build_tree`, every node with `m` points in its
subtree holds a point whose split coordinate is the entry at 0-based position
`floor((m-1)/2)` of the subtree's split coordinates sorted ascending, and its left subtree
holds exactly the points of the subtree with a strictly smaller split coordinate
(`lower_median_at`); and every node is the first entry with its split value in the primary
ordering `indices[start..end]` of the call of `insert_median` that returns it, a range that is
sorted by the split dimension and indexes exactly the points of the node's subtree
(`first_median_at`, from the call `build_tree` makes). -/
theorem build_tree_lower_median (t0 : KdTree) (S : StdSort) (pts : List Point)
    (hne : pts ≠ []) :
    ∃ (root : Node) (tree : KdTree), t0.build_tree S true true pts = some (root, tree) ∧
      tree.root_ = root ∧ lower_median_at true root ∧
      first_median_at (point_array pts) (root_call S pts) root := by
  obtain ⟨root, hb, _, _⟩ := build_tree_spec t0 S pts hne
  obtain ⟨r, hr, hroot⟩ := build_tree_root_call t0 S pts hne root _ hb
  refine ⟨root, ⟨root⟩, hb, rfl, ?_, ?_⟩
  · rw [← hroot]
    exact call_lower_median (point_array pts) (pts.length + 1) (root_call S pts) pts.length rfl
      (by simp [root_call]) (by omega) (root_range_inv S pts) r hr
  · rw [← hroot]
    exact call_first_median (point_array pts) (pts.length + 1) (root_call S pts) pts.length rfl
      (by simp [root_call]) (by omega) (root_range_inv S pts) r hr

theorem build_tree_lower_median_witness :
    dup_points ≠ [] ∧
    ∃ (root : Node) (tree : KdTree),
      KdTree.new.build_tree insertion_sort true true dup_points = some (root, tree) ∧
      tree.root_ = root ∧ lower_median_at true root ∧
      first_median_at (point_array dup_points) (root_call insertion_sort dup_points) root :=
  ⟨by decide, build_tree_lower_median KdTree.new insertion_sort dup_points (by decide)⟩

/-! ## Balance with distinct coordinates -/

/-- In a strictly increasing list, exactly `j` entries are below the entry at position `j`. -/
theorem count_lt_getD (K : List Int) (hs : K.Pairwise (· < ·)) (j : Nat) (hj : j < K.length) :
    (K.filter (fun x => decide (x < K.getD j 0))).length = j := by
  induction K generalizing j with
  | nil => simp at hj
  | cons x K ih =>
    obtain ⟨hx, hK⟩ := List.pairwise_cons.mp hs
    cases j with
    | zero =>
      simp only [List.getD_cons_zero]
      rw [List.filter_cons_of_neg (by simp), List.length_eq_zero, List.filter_eq_nil_iff]
      intro y hy
      have := hx y hy
      simp only [decide_eq_true_eq]
      omega
    | succ j =>
      have hj2 : j < K.length := by simpa using hj
      simp only [List.getD_cons_succ]
      have hmem : K.getD j 0 ∈ K := by
        rw [List.getD_eq_getElem _ _ hj2]
        exact List.getElem_mem hj2
      rw [List.filter_cons_of_pos (by simpa using hx _ hmem), List.length_cons, ih hK j hj2]

theorem map_key_eq (sx : Bool) (l : List Point) :
    l.map (key sx) = if sx then l.map Point.x else l.map Point.y := by
  cases sx
  · simp only [Bool.false_eq_true, if_false]
    apply List.map_congr_left
    intro p _
    simp [key]
  · simp only [if_true]
    apply List.map_congr_left
    intro p _
    simp [key]

/-- With distinct `x` and distinct `y` coordinates the lower-median property fixes the sizes
of the two subtrees at every node. -/
theorem balanced_of_lower_median (t : Node) (sx : Bool) (h : lower_median_at sx t)
    (hx : (t.points.map Point.x).Nodup) (hy : (t.points.map Point.y).Nodup) :
    balanced_at t := by
  induction t generalizing sx with
  | null => exact trivial
  | mk p l r ihl ihr =>
    obtain ⟨hmed, hleft, hl, hr⟩ := h
    have hsubl : l.points.Sublist (Node.mk p l r).points := by
      simp only [Node.points]
      exact (List.sublist_append_left _ _).trans (List.sublist_cons_self _ _)
    have hsubr : r.points.Sublist (Node.mk p l r).points := by
      simp only [Node.points]
      exact (List.sublist_append_right _ _).trans (List.sublist_cons_self _ _)
    have bl := ihl (!sx) hl ((hsubl.map _).nodup hx) ((hsubl.map _).nodup hy)
    have br := ihr (!sx) hr ((hsubr.map _).nodup hx) ((hsubr.map _).nodup hy)
    have hnd : ((Node.mk p l r).points.map (key sx)).Nodup := by
      rw [map_key_eq]
      cases sx
      · exact hy
      · exact hx
    have hperm : (sorted_keys sx (Node.mk p l r).points).Perm
        ((Node.mk p l r).points.map (key sx)) := List.perm_insertionSort _ _
    have hsorted : (sorted_keys sx (Node.mk p l r).points).Pairwise (· < ·) := by
      have h1 : (sorted_keys sx (Node.mk p l r).points).Pairwise (· ≤ ·) :=
        List.sorted_insertionSort _ _
      have h2 : (sorted_keys sx (Node.mk p l r).points).Pairwise (· ≠ ·) :=
        (List.Perm.nodup_iff hperm).mpr hnd
      exact (h1.and h2).imp (fun hab => lt_of_le_of_ne hab.1 hab.2)
    have hlenK : (sorted_keys sx (Node.mk p l r).points).length = size (Node.mk p l r) := by
      rw [hperm.length_eq, List.length_map, size_eq_length_points]
    have hpos : 0 < size (Node.mk p l r) := by simp only [size]; omega
    have hcount := count_lt_getD _ hsorted ((size (Node.mk p l r) - 1) / 2)
      (by rw [hlenK]; omega)
    rw [← hmed] at hcount
    have hcount2 : ((Node.mk p l r).points.filter
        (fun q => decide (key sx q < key sx p))).length = (size (Node.mk p l r) - 1) / 2 := by
      rw [← hcount, (List.Perm.filter (fun x => decide (x < key sx p)) hperm).length_eq,
        List.filter_map, List.length_map]
      rfl
    rw [hleft] at hcount2
    have hsl : size l = (size (Node.mk p l r) - 1) / 2 := by
      rw [size_eq_length_points l]; exact hcount2
    refine ⟨hsl, ?_, bl, br⟩
    have hsz : size (Node.mk p l r) = 1 + size l + size r := rfl
    omega

theorem size_eq_zero (t : Node) (h : size t = 0) : t = Node.null := by
  cases t with
  | null => rfl
  | mk p l r => simp only [size] at h; omega

/-- A tree balanced at every node has height `floor(log2 n) + 1`. -/
theorem height_of_balanced (t : Node) (h : balanced_at t) (hne : t ≠ Node.null) :
    height t = Nat.log 2 (size t) + 1 := by
  induction t with
  | null => exact absurd rfl hne
  | mk p l r ihl ihr =>
    obtain ⟨hsl, hsr, bl, br⟩ := h
    have hsz : size (Node.mk p l r) = 1 + size l + size r := rfl
    by_cases hr0 : size r = 0
    · have hl0 : size l = 0 := by omega
      rw [hsz, hr0, hl0]
      rw [size_eq_zero l hl0, size_eq_zero r hr0]
      simp [height]
    · have hrne : r ≠ Node.null := by
        intro hn; rw [hn] at hr0; exact hr0 rfl
      have hhr := ihr br hrne
      have hhl : height l ≤ height r := by
        by_cases hl0 : size l = 0
        · rw [size_eq_zero l hl0]; simp [height]
        · have hlne : l ≠ Node.null := by
            intro hn; rw [hn] at hl0; exact hl0 rfl
          rw [ihl bl hlne, hhr]
          have : size l ≤ size r := by omega
          have := Nat.log_mono_right (b := 2) this
          omega
      have hhalf : size r = size (Node.mk p l r) / 2 := by omega
      have hlog : Nat.log 2 (size (Node.mk p l r)) =
          Nat.log 2 (size (Node.mk p l r) / 2) + 1 :=
        Nat.log_of_one_lt_of_le (by omega) (by omega)
      rw [hlog, ← hhalf]
      simp only [height]
      rw [max_eq_right hhl, hhr]
      omega

/-- With distinct `x` and distinct `y` coordinates the tree `build_tree` produces is balanced
at every node and so of height `floor(log2 n) + 1`. -/
theorem build_tree_distinct (t0 : KdTree) (S : StdSort) (pts : List Point) (hne : pts ≠ [])
    (hx : (pts.map Point.x).Nodup) (hy : (pts.map Point.y).Nodup) :
    ∃ root : Node, t0.build_tree S true true pts = some (root, ⟨root⟩) ∧
      balanced_at root ∧ height root = Nat.log 2 pts.length + 1 := by
  obtain ⟨root, hb, hperm, _⟩ := build_tree_spec t0 S pts hne
  obtain ⟨r, hr, hroot⟩ := build_tree_root_call t0 S pts hne root _ hb
  have hmed : lower_median_at true root := by
    rw [← hroot]
    exact call_lower_median (point_array pts) (pts.length + 1) (root_call S pts) pts.length rfl
      (by simp [root_call]) (by omega) (root_range_inv S pts) r hr
  have hbal := balanced_of_lower_median root true hmed
    ((List.Perm.nodup_iff (List.Perm.map _ hperm)).mpr hx)
    ((List.Perm.nodup_iff (List.Perm.map _ hperm)).mpr hy)
  have hsize : size root = pts.length := by rw [size_eq_length_points, hperm.length_eq]
  have hrne : root ≠ Node.null := by
    intro hn
    rw [hn] at hsize
    have : pts.length = 0 := hsize.symm
    exact hne (List.length_eq_zero.mp this)
  refine ⟨root, hb, hbal, ?_⟩
  rw [height_of_balanced root hbal hrne, hsize]

theorem height_le_size (t : Node) : height t ≤ size t := by
  induction t with
  | null => exact le_refl _
  | mk p l r ihl ihr =>
    simp only [height, size]
    omega

/-- Claim C18.  For every input of `n ≥ 1` points whose `x` coordinates are pairwise distinct
and whose `y` coordinates are pairwise distinct, the tree `build_tree` produces is balanced:
at every node with `m` points in its subtree the left subtree has `floor((m-1)/2)` points and
the right subtree `ceil((m-1)/2)`, and the height of the tree is `floor(log2 n) + 1`. -/
theorem build_tree_balanced (t0 : KdTree) (S : StdSort) (pts : List Point) (hne : pts ≠ [])
    (hx : (pts.map Point.x).Nodup) (hy : (pts.map Point.y).Nodup) :
    ∃ (root : Node) (tree : KdTree), t0.build_tree S true true pts = some (root, tree) ∧
      tree.root_ = root ∧ balanced_at root ∧ height root = Nat.log 2 pts.length + 1 := by
  obtain ⟨root, hb, hbal, hh⟩ := build_tree_distinct t0 S pts hne hx hy
  exact ⟨root, ⟨root⟩, hb, rfl, hbal, hh⟩

theorem build_tree_balanced_witness :
    fixture7 ≠ [] ∧ (fixture7.map Point.x).Nodup ∧ (fixture7.map Point.y).Nodup ∧
    ∃ (root : Node) (tree : KdTree),
      KdTree.new.build_tree insertion_sort true true fixture7 = some (root, tree) ∧
      tree.root_ = root ∧ balanced_at root ∧ height root = Nat.log 2 fixture7.length + 1 :=
  ⟨by decide, by decide, by decide,
    build_tree_balanced KdTree.new insertion_sort fixture7 (by decide) (by decide)
      (by decide)⟩

/-! ## Every call of `insert_median` -/

/-- The calls made in the course of a call that satisfies `RangeInv` with a budget larger
than its range satisfy `RangeInv` with a budget larger than their range. -/
theorem reaches_inv (points : Int → Point) (c0 c : Call)
    (h0 : ∃ n : Nat, c0.end_ = c0.start + n - 1 ∧ n < c0.fuel ∧
      RangeInv points c0.indices c0.other_indices c0.start n c0.split_x)
    (hreach : Call.Reaches points c0 c) :
    ∃ n : Nat, c.end_ = c.start + n - 1 ∧ n < c.fuel ∧
      RangeInv points c.indices c.other_indices c.start n c.split_x := by
  induction hreach with
  | self => exact h0
  | left d e _ hleft ih =>
    obtain ⟨n, hend, hfuel, inv⟩ := ih
    by_cases hgt : d.end_ > d.start
    · obtain ⟨f, hf⟩ := Nat.exists_eq_succ_of_ne_zero (show d.fuel ≠ 0 by omega)
      have hn : 2 ≤ n := by omega
      obtain ⟨a, b, st⟩ := call_step points d n hend hn inv
      obtain ⟨tl, tr, o2, i2, t2, o3, i3, t3, _, hl, _, _, _, _⟩ :=
        call_children points d n a b f hf hend hn (by omega) st
      rw [hl] at hleft
      rw [← Option.some.inj hleft]
      have := st.size_eq
      exact ⟨a, rfl, by show a < f; omega, st.left_inv⟩
    · simp only [Call.left, if_neg hgt] at hleft
      exact absurd hleft (by simp)
  | right d e _ hright ih =>
    obtain ⟨n, hend, hfuel, inv⟩ := ih
    by_cases hgt : d.end_ > d.start
    · obtain ⟨f, hf⟩ := Nat.exists_eq_succ_of_ne_zero (show d.fuel ≠ 0 by omega)
      have hn : 2 ≤ n := by omega
      obtain ⟨a, b, st⟩ := call_step points d n hend hn inv
      obtain ⟨tl, tr, o2, i2, t2, o3, i3, t3, _, _, invR, _, hr, _⟩ :=
        call_children points d n a b f hf hend hn (by omega) st
      rw [hr] at hright
      rw [← Option.some.inj hright]
      have := st.size_eq
      exact ⟨b, rfl, by show b < f; omega, invR⟩
    · simp only [Call.right, if_neg hgt] at hright
      exact absurd hright (by simp)

/-- Claim C16.  Every call of `insert_median` made in the course of `build_tree` on a
non-empty input (the call `build_tree` makes, and every recursive call) is entered with
`indices[start..end]` sorted ascending by the split dimension, `other_indices[start..end]`
sorted ascending by the other dimension, and both slices holding the same point indices;
when it partitions, the pass sends `median_idx - start` entries left and `end - median_idx`
entries right, each group in the order it had in the other ordering, and changes nothing
outside `[start, end]`; and the call returns with both orderings unaltered outside
`[start, end]`. -/
theorem insert_median_calls (S : StdSort) (pts : List Point) (hne : pts ≠ []) (c : Call)
    (hreach : Call.Reaches (point_array pts) (root_call S pts) c) :
    CallOk (point_array pts) c := by
  have hlen : 0 < pts.length := List.length_pos.mpr hne
  obtain ⟨n, hend, hfuel, inv⟩ := reaches_inv (point_array pts) (root_call S pts) c
    ⟨pts.length, by simp [root_call], by simp [root_call], root_range_inv S pts⟩ hreach
  refine ⟨n, hend, inv, ?_, ?_⟩
  · intro hgt
    exact call_step (point_array pts) c n hend (by omega) inv
  · obtain ⟨t, i1, o1, t1, hcall, _, _, hf1, hf2⟩ :=
      insert_median_spec (point_array pts) c.fuel c.indices c.other_indices c.temp_indices
        c.start n c.split_x hfuel inv
    refine ⟨t, i1, o1, t1, ?_, ?_⟩
    · unfold Call.result
      rw [hend]
      exact hcall
    · intro j hj
      have hj2 : j < c.start ∨ c.start + (n : Int) ≤ j := by omega
      exact ⟨hf1 j hj2, hf2 j hj2⟩

theorem insert_median_calls_witness :
    fixture7 ≠ [] ∧
    ∃ e : Call, (root_call insertion_sort fixture7).right (point_array fixture7) = some e ∧
      Call.Reaches (point_array fixture7) (root_call insertion_sort fixture7) e ∧
      CallOk (point_array fixture7) e :=
  ⟨by decide, _, rfl, Call.Reaches.right _ _ Call.Reaches.self rfl,
    insert_median_calls insertion_sort fixture7 (by decide) _
      (Call.Reaches.right _ _ Call.Reaches.self rfl)⟩

end PointTree
